import Mathlib

/-!
Shallow embedding of the galaxy repository's convergent versioned map
(`utils/vmap.go`) and of the container lifecycle reconciler's image-pull and
stop logic (`runtime` package), together with proofs checking the
natural-language specification against the code.

Go strings are modelled as `List Char` (Go's `<`/`>` on strings is bytewise
lexicographic comparison, which agrees with lexicographic comparison of the
code-point lists for the orderings used here).  Go `int64` versions are
modelled as `Int`.  A Go `map[K]V` is modelled as an association list with
pairwise-distinct keys; iteration order over a Go map is unspecified, and
every theorem below is insensitive to the order chosen by the model.
-/

namespace Galaxy

/-! Definitions of the embedding. -/

abbrev Str := List Char

/-- `mapEntry` from `utils/vmap.go`: one (value, version) record of a key's
history. -/
structure MapEntry where
  value : Str
  version : Int
deriving DecidableEq, Repr

/-- `VersionedMap.values`, a Go `map[string][]mapEntry`, as an association
list. -/
abbrev VMap := List (Str × List MapEntry)

/-- Go map read `v.values[key]`: the zero value `[]` when the key is absent. -/
def vLookup : VMap → Str → List MapEntry
  | [], _ => []
  | (k, es) :: rest, key => if k = key then es else vLookup rest key

/-- Go map write `v.values[key] = append(v.values[key], e)`. -/
def updateAdd : VMap → Str → MapEntry → VMap
  | [], key, e => [(key, [e])]
  | (k, es) :: rest, key, e =>
    if k = key then (k, es ++ [e]) :: rest else (k, es) :: updateAdd rest key e

/-- `SetVersion` (vmap.go:137-143). -/
def setVersion (m : VMap) (key value : Str) (version : Int) : VMap :=
  updateAdd m key ⟨value, version⟩

/-- `UnSetVersion` (vmap.go:145-151). -/
def unSetVersion (m : VMap) (key : Str) (version : Int) : VMap :=
  updateAdd m key ⟨[], version⟩

/-- The loop of `currentVersion` (vmap.go:123-131) over one key's entries:
`next := 0; for each entry, if entry.version > next then next = entry.version`. -/
def currentVersionList (entries : List MapEntry) : Int :=
  entries.foldl (fun next e => if next < e.version then e.version else next) 0

/-- `currentVersion` (vmap.go:123-131). -/
def currentVersion (m : VMap) (key : Str) : Int :=
  currentVersionList (vLookup m key)

/-- Two's-complement wrap of Go `int64` arithmetic: the representative of
`n` modulo `2^64` lying in `[-2^63, 2^63)`.  Go defines signed overflow as
this wrap, so every `int64` addition or subtraction of the source is wrapped
with it in the model. -/
def wrap64 (n : Int) : Int := (n + 2 ^ 63) % 2 ^ 64 - 2 ^ 63

/-- `nextVersion` (vmap.go:133-135): `currentVersion + 1` in `int64`
arithmetic, which wraps to `MinInt64` when `currentVersion = MaxInt64`. -/
def nextVersion (m : VMap) (key : Str) : Int :=
  wrap64 (currentVersion m key + 1)

/-- `Set` (vmap.go:153-155). -/
def vSet (m : VMap) (key value : Str) : VMap :=
  setVersion m key value (nextVersion m key)

/-- `UnSet` (vmap.go:157-159). -/
def vUnSet (m : VMap) (key : Str) : VMap :=
  unSetVersion m key (nextVersion m key)

/-- The body of `Get`'s loop (vmap.go:161-178): first replace `maxEntry` when
the version is strictly larger, then on version ties prefer the larger
value. -/
def getStep (maxEntry entry : MapEntry) : MapEntry :=
  let m1 := if maxEntry.version < entry.version then entry else maxEntry
  if entry.version = m1.version ∧ m1.value < entry.value then entry else m1

/-- `Get`'s scan over one key's entries, starting from the zero
`mapEntry{}` = `{value := "", version := 0}`. -/
def getList (entries : List MapEntry) : Str :=
  (entries.foldl getStep ⟨[], 0⟩).value

/-- `Get` (vmap.go:161-178). -/
def vGet (m : VMap) (key : Str) : Str :=
  getList (vLookup m key)

/-- `LatestVersion` (vmap.go:188-198): global maximum version, floored at 0. -/
def latestVersion (m : VMap) : Int :=
  m.foldl (fun latest p =>
    p.2.foldl (fun latest e => if latest < e.version then e.version else latest) latest) 0

/-- Go map write `v.values[k] = append(v.values[k], entries...)`. -/
def updateAddAll : VMap → Str → List MapEntry → VMap
  | [], key, es => [(key, es)]
  | (k, es') :: rest, key, es =>
    if k = key then (k, es' ++ es) :: rest else (k, es') :: updateAddAll rest key es

/-- `Merge` (vmap.go:200-204): append every entry of `other` into `m`. -/
def vMerge (m other : VMap) : VMap :=
  other.foldl (fun acc p => updateAddAll acc p.1 p.2) m

/-- The association list models a Go map: its keys are pairwise distinct. -/
def keysNodup (m : VMap) : Prop := (m.map Prod.fst).Nodup

instance (m : VMap) : Decidable (keysNodup m) := by
  unfold keysNodup; infer_instance

/-! ### The entry ordering computed by `Get`'s loop -/

/-- Strict "later" ordering on entries: higher version, ties broken by the
lexicographically larger value.  `getStep` is proved below to select the
maximum under this ordering. -/
def entLt (a b : MapEntry) : Prop :=
  a.version < b.version ∨ (a.version = b.version ∧ a.value < b.value)

instance : DecidableRel entLt := fun a b => by
  unfold entLt; infer_instance

/-- Non-strict version: `entLe a b` iff `b` is not strictly earlier than `a`. -/
def entLe (a b : MapEntry) : Prop := ¬ entLt b a

/-- The fold underlying `getList`. -/
def getFold (init : MapEntry) (entries : List MapEntry) : MapEntry :=
  entries.foldl getStep init

/-! ### C4: the value Get resolves to -/

/-- Binary maximum in the "higher version, then larger value" ordering. -/
def entMax (a b : MapEntry) : MapEntry := if entLt a b then b else a

/-- The resolution rule in the words of the spec: the entry with the highest
version among the key's entries, a version tie broken by the
lexicographically greatest value; the empty string for an empty history. -/
def specResolve : List MapEntry → Str
  | [] => []
  | h :: rest => (rest.foldl entMax h).value

/-! ### The wire format: decimal formatting and parsing

`strconv.FormatInt(v, 10)` and `strconv.ParseInt(s, 10, 64)` modelled over
`List Char`.  (The 64-bit overflow check of `ParseInt` is immaterial here:
every parsed string in the theorems below was produced by `FormatInt`.) -/

def digitChar (d : Nat) : Char :=
  match d with
  | 0 => '0' | 1 => '1' | 2 => '2' | 3 => '3' | 4 => '4'
  | 5 => '5' | 6 => '6' | 7 => '7' | 8 => '8' | _ => '9'

/-- Decimal digits of `n`, most significant first.  The fuel argument only
serves structural termination; `fuel ≥ n` always suffices. -/
def natToDigitsAux : Nat → Nat → Str
  | 0, n => [digitChar n]
  | fuel + 1, n =>
    if n < 10 then [digitChar n]
    else natToDigitsAux fuel (n / 10) ++ [digitChar (n % 10)]

def natToDigits (n : Nat) : Str := natToDigitsAux n n

/-- `strconv.FormatInt(v, 10)`. -/
def formatInt (v : Int) : Str :=
  if v < 0 then '-' :: natToDigits v.natAbs else natToDigits v.toNat

def digitVal (c : Char) : Nat :=
  match c with
  | '0' => 0 | '1' => 1 | '2' => 2 | '3' => 3 | '4' => 4
  | '5' => 5 | '6' => 6 | '7' => 7 | '8' => 8 | '9' => 9
  | _ => 10

def pstep (acc : Option Nat) (c : Char) : Option Nat :=
  acc.bind (fun a => if digitVal c ≤ 9 then some (a * 10 + digitVal c) else none)

def parseNatDigits (s : Str) : Option Nat :=
  if s.isEmpty then none else s.foldl pstep (some 0)

/-- `strconv.ParseInt(s, 10, 64)`: optional sign followed by decimal digits;
anything else is an error (`none`). -/
def parseInt (s : Str) : Option Int :=
  match s with
  | [] => none
  | c :: rest =>
    if c = '-' then Option.map (fun n : Nat => -(n : Int)) (parseNatDigits rest)
    else if c = '+' then Option.map (fun n : Nat => (n : Int)) (parseNatDigits rest)
    else Option.map (fun n : Nat => (n : Int)) (parseNatDigits (c :: rest))

def decDigits : Str := ['0', '1', '2', '3', '4', '5', '6', '7', '8', '9']

/-! ### Splitting wire keys on ':' -/

/-- `strings.Split(s, ":")`. -/
def splitOnColon : Str → List Str
  | [] => [[]]
  | c :: rest =>
    match splitOnColon rest with
    | [] => [[]]
    | g :: gs => if c = ':' then [] :: g :: gs else (c :: g) :: gs

def colonFree (s : Str) : Prop := ':' ∉ s

instance (s : Str) : Decidable (colonFree s) := by
  unfold colonFree; infer_instance

/-! ### Wire records: MarshalMap, UnmarshalMap, MarshalExpiredMap -/

/-- The `op` marker (vmap.go:210-213): `"u"` for an unset (empty value),
`"s"` otherwise. -/
def opOf (e : MapEntry) : Str := if e.value = [] then ['u'] else ['s']

/-- `strings.Join([]string{key, op, strconv.FormatInt(version, 10)}, ":")`. -/
def wireKey (key op : Str) (version : Int) : Str :=
  key ++ ':' :: (op ++ ':' :: formatInt version)

/-- The one wire record an entry marshals to. -/
def entryRecord (k : Str) (e : MapEntry) : Str × Str :=
  (wireKey k (opOf e) e.version, e.value)

/-- Go map assignment `result[mapKey] = value`: overwrite or append. -/
def wireInsert : List (Str × Str) → Str → Str → List (Str × Str)
  | [], k, v => [(k, v)]
  | (k0, v0) :: rest, k, v =>
    if k0 = k then (k0, v) :: rest else (k0, v0) :: wireInsert rest k v

/-- The inner loop of `MarshalMap` (vmap.go:208-217): marshal every entry of
one key into the accumulated wire map. -/
def marshalStep (result : List (Str × Str)) (p : Str × List MapEntry) : List (Str × Str) :=
  p.2.foldl (fun result e =>
    wireInsert result (wireKey p.1 (opOf e) e.version) e.value) result

/-- `MarshalMap` (vmap.go:206-220). -/
def marshalMap (m : VMap) : List (Str × Str) :=
  m.foldl marshalStep []

/-- The loop body of `UnmarshalMap` (vmap.go:224-235): split the wire key on
':', parse `parts[2]` as the version (`none` on error), and build the entry
the `SetVersion`/`UnSetVersion` call appends — `(parts[0], {val, version})`
when `parts[1] == "s"`, `(parts[0], {"", version})` otherwise.  Go indexes
`parts[1]` and `parts[2]` and would panic on a wire key with fewer than three
parts; that is modelled by `getD` defaults, which no theorem below
exercises. -/
def parseRecord (r : Str × Str) : Option (Str × MapEntry) :=
  let parts := splitOnColon r.1
  match parseInt (parts.getD 2 []) with
  | none => none
  | some version =>
    if parts.getD 1 [] = ['s'] then some (parts.getD 0 [], ⟨r.2, version⟩)
    else some (parts.getD 0 [], ⟨[], version⟩)

/-- `UnmarshalMap` (vmap.go:222-237): apply every record via
`SetVersion`/`UnSetVersion` (both are `updateAdd` of the parsed entry); the
first parse error aborts with `none` (Go returns the error). -/
def unmarshalMap (m : VMap) : List (Str × Str) → Option VMap
  | [] => some m
  | r :: rest =>
    match parseRecord r with
    | none => none
    | some (k, e) => unmarshalMap (updateAdd m k e) rest

/-- The inner loop of `MarshalExpiredMap` (vmap.go:243-256): entries with
`version >= currentVersion - age` are skipped (`continue`), the rest are
marshalled.  The threshold subtraction is `int64` arithmetic, hence
wrapped. -/
def marshalExpiredStep (m : VMap) (age : Int) (result : List (Str × Str))
    (p : Str × List MapEntry) : List (Str × Str) :=
  p.2.foldl (fun result e =>
    if wrap64 (currentVersion m p.1 - age) ≤ e.version then result
    else wireInsert result (wireKey p.1 (opOf e) e.version) e.value) result

/-- `MarshalExpiredMap` (vmap.go:241-259): marshal only the entries whose
version is more than `age` behind the key's `currentVersion`. -/
def marshalExpiredMap (m : VMap) (age : Int) : List (Str × Str) :=
  m.foldl (marshalExpiredStep m age) []

def wireKeys (l : List (Str × Str)) : List Str := l.map Prod.fst

def wireNodup (l : List (Str × Str)) : Prop := (l.map Prod.fst).Nodup

def wireFold (acc : List (Str × Str)) (rs : List (Str × Str)) : List (Str × Str) :=
  rs.foldl (fun a r => wireInsert a r.1 r.2) acc

/-- All records of a batch that share a wire key carry the same value.  Go's
`result[mapKey] = value` then loses only exact duplicates. -/
def coherent (S : List (Str × Str)) : Prop :=
  ∀ r1 ∈ S, ∀ r2 ∈ S, r1.1 = r2.1 → r1.2 = r2.2

/-! ### Flattening the marshal loops into record lists -/

/-- Every wire record `MarshalMap` writes, each tagged by its generating
(key, entry) pair. -/
def records (m : VMap) : List (Str × Str) :=
  m.flatMap (fun p => p.2.map (entryRecord p.1))

/-- The records `MarshalExpiredMap` writes: entries strictly below the
wrapped `currentVersion - age` threshold. -/
def expiredRecords (m : VMap) (age : Int) : List (Str × Str) :=
  m.flatMap (fun p =>
    (p.2.filter (fun e => decide (e.version < wrap64 (currentVersion m p.1 - age)))).map
      (entryRecord p.1))

/-! ## Container lifecycle reconciler (the runtime package)

Only the logic the claims are about is embedded: the `PullImage` retry loop,
`stopContainer` with its blacklist, and the Stop family.  Network round trips
are oracle parameters: `res` gives the outcome of each pull attempt, `oc`
decides the race between a runtime stop and the 20-second watchdog,
`inspect` answers `InspectImage`, and `pools` answers `ListAssignedPools`.
The container lists the Stop family iterates are the snapshots
`ManagedContainers` returns. -/

/-- Outcome of one `dockerClient.PullImage` round trip. -/
inductive PullOutcome
  | ok
  | notFound
  | err
deriving DecidableEq, Repr

/-- What the surrounding `PullImage` call returns. -/
inductive PullReturn
  | success
  | notFoundPrev
  | failed
deriving DecidableEq, Repr

/-- The retry loop of `PullImage` (part_001 lines 836-854).  `retries` starts
at 0 and is incremented at the top of every iteration; attempt `r` gets
outcome `res r`.  A 404 returns the previous image with nil error; any other
failure returns the error once `retries > 3`, else retries immediately.  The
fuel argument serves structural termination only: the loop provably exits
within 4 iterations (`pullLoop_fuel`), so fuel 4 is exact.  The first
component of the result counts the pull attempts made. -/
def pullLoop (res : Nat → PullOutcome) : Nat → Nat → Nat × PullReturn
  | retries, 0 => (retries, PullReturn.failed)
  | retries, fuel + 1 =>
    match res (retries + 1) with
    | PullOutcome.ok => (retries + 1, PullReturn.success)
    | PullOutcome.notFound => (retries + 1, PullReturn.notFoundPrev)
    | PullOutcome.err =>
      if retries + 1 > 3 then (retries + 1, PullReturn.failed)
      else pullLoop res (retries + 1) fuel

structure ImageRec where
  id : Str
deriving DecidableEq, Repr

/-- Result of `InspectImage`. -/
inductive InspectRes
  | err
  | noSuchImage
  | img (i : ImageRec)
deriving DecidableEq, Repr

/-- `PullImage` (part_001 lines 807-858), up to the final re-inspect: an
inspect failure other than ErrNoSuchImage is surfaced (`none`); a local image
whose id equals the desired content id short-circuits with zero pull
attempts; otherwise the retry loop runs. -/
def pullImage (inspect : InspectRes) (contentId : Str) (res : Nat → PullOutcome) :
    Option (Nat × PullReturn) :=
  match inspect with
  | InspectRes.err => none
  | InspectRes.img i =>
    if i.id = contentId then some (0, PullReturn.success)
    else some (pullLoop res 0 4)
  | InspectRes.noSuchImage => some (pullLoop res 0 4)

/-! ### The stop family and the blacklist -/

/-- A container as the stop family sees it: docker id, image reference, and
the identity environment.  `EnvFor` (part_001 lines 992-1001) splits raw
"K=V" entries at the first '='; the already-split pairs are modelled
directly, and a Go map read of a missing key yields the zero value "". -/
structure Container where
  id : Str
  image : Str
  env : List (Str × Str)
deriving DecidableEq, Repr

def assocD : List (Str × Str) → Str → Str
  | [], _ => []
  | (k, v) :: rest, key => if k = key then v else assocD rest key

/-- `s.EnvFor(container)[name]`. -/
def envFor (c : Container) (name : Str) : Str := assocD c.env name

def galaxyApp : Str := "GALAXY_APP".toList

def galaxyVersion : Str := "GALAXY_VERSION".toList

/-- The application descriptor accessors the stop family consumes:
`appCfg.Name()`, `appCfg.ID()`, `appCfg.VersionID()`. -/
structure App where
  name : Str
  appId : Int
  versionId : Str
deriving DecidableEq, Repr

/-- Who wins the race inside `stopContainer` between the runtime stop (with
its 10s grace period) and the 20s watchdog, per container id. -/
inductive StopOutcome
  | completed
  | completedErr
  | timedOut
deriving DecidableEq, Repr

/-- The process state and effect log of the stop family: `blacklist` models
the package-level `blacklistedContainerId` map (part_001 line 21), `invoked`
records every `stopContainer` call, and `runtimeStops` every
`dockerClient.StopContainer` round trip actually issued. -/
structure StopState where
  blacklist : List Str
  invoked : List Str
  runtimeStops : List Str
deriving DecidableEq, Repr

/-- `stopContainer` (part_001 lines 219-249): a blacklisted id is skipped
with nil error and no runtime call; otherwise the runtime stop races the
watchdog — completion propagates the runtime error, while a timeout
permanently blacklists the id and returns nil.  The boolean is true when an
error is returned. -/
def stopContainer (oc : Str → StopOutcome) (st : StopState) (c : Container) :
    StopState × Bool :=
  if c.id ∈ st.blacklist then
    ({ st with invoked := st.invoked ++ [c.id] }, false)
  else
    match oc c.id with
    | StopOutcome.completed =>
      ({ st with
         invoked := st.invoked ++ [c.id],
         runtimeStops := st.runtimeStops ++ [c.id] }, false)
    | StopOutcome.completedErr =>
      ({ st with
         invoked := st.invoked ++ [c.id],
         runtimeStops := st.runtimeStops ++ [c.id] }, true)
    | StopOutcome.timedOut =>
      ({ blacklist := st.blacklist ++ [c.id],
         invoked := st.invoked ++ [c.id],
         runtimeStops := st.runtimeStops ++ [c.id] }, false)

namespace ServiceRuntime

/-- The filter of `Stop` (part_001 lines 208-215). -/
def stopMatch (app : App) (c : Container) : Prop :=
  envFor c galaxyApp = app.name
    ∧ envFor c galaxyVersion = formatInt app.appId
    ∧ app.versionId = c.image

instance (app : App) (c : Container) : Decidable (stopMatch app c) := by
  unfold stopMatch
  infer_instance

/-- `Stop` (part_001 lines 202-217): scan the managed containers and stop the
first one matching the app's name, version and image, returning that
`stopContainer` result — the `return` inside the loop means later matches are
not visited.  Returns nil if nothing matches. -/
def Stop (oc : Str → StopOutcome) (app : App) :
    List Container → StopState → StopState × Bool
  | [], st => (st, false)
  | c :: rest, st =>
    if stopMatch app c then stopContainer oc st c
    else Stop oc app rest st

/-- `StopAllMatching` (part_001 lines 182-200): stop every managed container
whose GALAXY_APP equals `name`, ignoring `stopContainer`'s result. -/
def StopAllMatching (oc : Str → StopOutcome) (name : Str) :
    List Container → StopState → StopState
  | [], st => st
  | c :: rest, st =>
    if envFor c galaxyApp ≠ name then StopAllMatching oc name rest st
    else StopAllMatching oc name rest (stopContainer oc st c).1

/-- The per-container filter shared by `StopOldVersion` and
`StopAllButCurrentVersion` (part_001 lines 265-288 and 304-327): the
container carries the app's identity tag, its image inspects successfully,
and its image id or version differs from the desired descriptor (each
difference only counts when the compared field is non-empty). -/
def oldVersionTarget (inspect : Str → Option (Option ImageRec)) (app : App)
    (c : Container) : Bool :=
  decide (envFor c galaxyApp = app.name) &&
    match inspect c.image with
    | some (some image) =>
      decide ((image.id ≠ app.versionId ∧ app.versionId ≠ [])
        ∨ (envFor c galaxyVersion ≠ formatInt app.appId ∧ envFor c galaxyVersion ≠ []))
    | _ => false

/-- `StopOldVersion` (part_001 lines 251-294): stop containers matching
`oldVersionTarget`, at most `limit` of them (`stopped == limit` is checked at
the top of each iteration); inspect failures and missing images are logged
and skipped. -/
def StopOldVersion (oc : Str → StopOutcome) (inspect : Str → Option (Option ImageRec))
    (app : App) (limit : Int) :
    List Container → StopState → Int → StopState
  | [], st, _ => st
  | c :: rest, st, stopped =>
    if stopped = limit then st
    else if envFor c galaxyApp ≠ app.name then
      StopOldVersion oc inspect app limit rest st stopped
    else match inspect c.image with
      | none => StopOldVersion oc inspect app limit rest st stopped
      | some none => StopOldVersion oc inspect app limit rest st stopped
      | some (some image) =>
        if (image.id ≠ app.versionId ∧ app.versionId ≠ [])
            ∨ (envFor c galaxyVersion ≠ formatInt app.appId
                ∧ envFor c galaxyVersion ≠ []) then
          StopOldVersion oc inspect app limit rest (stopContainer oc st c).1 (stopped + 1)
        else StopOldVersion oc inspect app limit rest st stopped

/-- `StopAllButCurrentVersion` (part_001 lines 296-332): like
`StopOldVersion` but with no bound. -/
def StopAllButCurrentVersion (oc : Str → StopOutcome)
    (inspect : Str → Option (Option ImageRec)) (app : App) :
    List Container → StopState → StopState
  | [], st => st
  | c :: rest, st =>
    if envFor c galaxyApp ≠ app.name then
      StopAllButCurrentVersion oc inspect app rest st
    else match inspect c.image with
      | none => StopAllButCurrentVersion oc inspect app rest st
      | some none => StopAllButCurrentVersion oc inspect app rest st
      | some (some image) =>
        if (image.id ≠ app.versionId ∧ app.versionId ≠ [])
            ∨ (envFor c galaxyVersion ≠ formatInt app.appId
                ∧ envFor c galaxyVersion ≠ []) then
          StopAllButCurrentVersion oc inspect app rest (stopContainer oc st c).1
        else StopAllButCurrentVersion oc inspect app rest st

/-- `StopUnassigned` (part_001 lines 379-400): stop every managed container
whose app has no pool assignment containing `pool`; a `ListAssignedPools`
error is logged and the container skipped. -/
def StopUnassigned (oc : Str → StopOutcome) (pools : Str → Option (List Str))
    (pool : Str) : List Container → StopState → StopState
  | [], st => st
  | c :: rest, st =>
    match pools (envFor c galaxyApp) with
    | none => StopUnassigned oc pools pool rest st
    | some ps =>
      if ps = [] ∨ pool ∉ ps then
        StopUnassigned oc pools pool rest (stopContainer oc st c).1
      else StopUnassigned oc pools pool rest st

/-- `StopAll` (part_001 lines 402-414): stop every managed container. -/
def StopAll (oc : Str → StopOutcome) : List Container → StopState → StopState
  | [], st => st
  | c :: rest, st => StopAll oc rest (stopContainer oc st c).1

/-- The filter of `StopUnassigned`. -/
def unassignedTarget (pools : Str → Option (List Str)) (pool : Str) (c : Container) :
    Bool :=
  match pools (envFor c galaxyApp) with
  | none => false
  | some ps => decide (ps = [] ∨ pool ∉ ps)

end ServiceRuntime

/-! Theorems about the embedding. -/

theorem entLt_irrefl (a : MapEntry) : ¬ entLt a a := by
  simp [entLt]

theorem entLt_trans {a b c : MapEntry} (h1 : entLt a b) (h2 : entLt b c) : entLt a c := by
  rcases h1 with h1 | ⟨h1v, h1s⟩ <;> rcases h2 with h2 | ⟨h2v, h2s⟩
  · exact Or.inl (lt_trans h1 h2)
  · exact Or.inl (h2v ▸ h1)
  · exact Or.inl (h1v ▸ h2)
  · exact Or.inr ⟨h1v.trans h2v, lt_trans h1s h2s⟩

theorem entLt_connex {a b : MapEntry} (h1 : ¬ entLt a b) (h2 : ¬ entLt b a) : a = b := by
  unfold entLt at h1 h2
  push_neg at h1 h2
  have hv : a.version = b.version := le_antisymm h2.1 h1.1
  have hs : a.value = b.value := le_antisymm (h2.2 hv.symm) (h1.2 hv)
  cases a; cases b; simp_all

theorem entLt_asymm {a b : MapEntry} (h : entLt a b) : ¬ entLt b a := by
  intro h'
  exact entLt_irrefl a (entLt_trans h h')

theorem entLe_refl (a : MapEntry) : entLe a a := entLt_irrefl a

theorem entLe_trans {a b c : MapEntry} (h1 : entLe a b) (h2 : entLe b c) : entLe a c := by
  intro h
  rcases Decidable.em (entLt a b) with hab | hab
  · exact h2 (entLt_trans h hab)
  · obtain rfl := entLt_connex hab h1
    exact h2 h

theorem entLt_of_entLt_of_entLe {a b c : MapEntry} (h1 : entLt a b) (h2 : entLe b c) :
    entLt a c := by
  rcases Decidable.em (entLt a c) with h | h
  · exact h
  · rcases Decidable.em (entLt c a) with h' | h'
    · exact absurd (entLt_trans h' h1) h2
    · obtain rfl := entLt_connex h h'
      exact absurd h1 h2

/-- `getStep` picks the `entLt`-maximum of its two arguments. -/
theorem getStep_eq_max (m e : MapEntry) :
    getStep m e = if entLt m e then e else m := by
  unfold getStep entLt
  by_cases hv : m.version < e.version
  · simp [hv, lt_irrefl]
  · by_cases he : e.version = m.version
    · by_cases hs : m.value < e.value
      · simp [hv, he, hs]
      · simp [hv, he, hs]
    · simp [hv, he, Ne.symm he]

theorem getStep_cases (m e : MapEntry) : getStep m e = m ∨ getStep m e = e := by
  rw [getStep_eq_max]; split <;> simp

theorem entLe_getStep_left (m e : MapEntry) : entLe m (getStep m e) := by
  rw [getStep_eq_max]; split
  · next h => exact entLt_asymm h
  · exact entLe_refl m

theorem entLe_getStep_right (m e : MapEntry) : entLe e (getStep m e) := by
  rw [getStep_eq_max]; split
  · exact entLe_refl e
  · next h => exact h

theorem getFold_mem (init : MapEntry) (l : List MapEntry) :
    getFold init l = init ∨ getFold init l ∈ l := by
  induction l generalizing init with
  | nil => exact Or.inl rfl
  | cons e rest ih =>
    rcases ih (getStep init e) with h | h
    · rcases getStep_cases init e with h' | h'
      · exact Or.inl (by rw [getFold, List.foldl_cons, ← getFold, h, h'])
      · exact Or.inr (by rw [getFold, List.foldl_cons, ← getFold, h, h']; exact List.mem_cons_self _ _)
    · exact Or.inr (List.mem_cons_of_mem _ h)

theorem entLe_init_getFold (init : MapEntry) (l : List MapEntry) :
    entLe init (getFold init l) := by
  induction l generalizing init with
  | nil => exact entLe_refl init
  | cons e rest ih =>
    exact entLe_trans (entLe_getStep_left init e) (ih (getStep init e))

theorem entLe_mem_getFold (init : MapEntry) (l : List MapEntry) :
    ∀ x ∈ l, entLe x (getFold init l) := by
  induction l generalizing init with
  | nil => intro x hx; cases hx
  | cons e rest ih =>
    intro x hx
    rcases List.mem_cons.mp hx with rfl | hx
    · exact entLe_trans (entLe_getStep_right init x) (entLe_init_getFold (getStep init x) rest)
    · exact ih (getStep init e) x hx

/-- The fold computes the unique `entLt`-maximum of `init :: l`: any two folds
over lists with the same elements agree. -/
theorem getFold_congr {init : MapEntry} {l1 l2 : List MapEntry}
    (h : ∀ x, x ∈ l1 ↔ x ∈ l2) : getFold init l1 = getFold init l2 := by
  have hub1 : entLe (getFold init l1) (getFold init l2) := by
    rcases getFold_mem init l1 with h1 | h1
    · rw [h1]; exact entLe_init_getFold init l2
    · exact entLe_mem_getFold init l2 _ ((h _).mp h1)
  have hub2 : entLe (getFold init l2) (getFold init l1) := by
    rcases getFold_mem init l2 with h2 | h2
    · rw [h2]; exact entLe_init_getFold init l1
    · exact entLe_mem_getFold init l1 _ ((h _).mpr h2)
  exact (entLt_connex hub2 hub1)

theorem getList_congr {l1 l2 : List MapEntry} (h : ∀ x, x ∈ l1 ↔ x ∈ l2) :
    getList l1 = getList l2 := by
  show (getFold ⟨[], 0⟩ l1).value = (getFold ⟨[], 0⟩ l2).value
  rw [getFold_congr h]

/-! ### Lookup lemmas for the map operations -/

theorem vLookup_eq_nil_of_not_mem {m : VMap} {k : Str} (h : k ∉ m.map Prod.fst) :
    vLookup m k = [] := by
  induction m with
  | nil => rfl
  | cons p rest ih =>
    obtain ⟨k0, es0⟩ := p
    simp only [List.map_cons, List.mem_cons] at h
    push_neg at h
    simp only [vLookup, if_neg (Ne.symm h.1)]
    exact ih h.2

theorem vLookup_updateAdd (m : VMap) (k : Str) (e : MapEntry) (k' : Str) :
    vLookup (updateAdd m k e) k' =
      if k = k' then vLookup m k ++ [e] else vLookup m k' := by
  induction m with
  | nil =>
    by_cases h : k = k' <;> simp [updateAdd, vLookup, h]
  | cons p rest ih =>
    obtain ⟨k0, es0⟩ := p
    by_cases h0 : k0 = k
    · subst h0
      by_cases h : k0 = k' <;> simp [updateAdd, vLookup, h]
    · by_cases h : k0 = k'
      · subst h
        have : ¬ k = k0 := fun hh => h0 hh.symm
        simp [updateAdd, vLookup, h0, this]
      · simp [updateAdd, vLookup, h0, h, ih]

theorem vLookup_updateAddAll (m : VMap) (k : Str) (es : List MapEntry) (k' : Str) :
    vLookup (updateAddAll m k es) k' =
      if k = k' then vLookup m k ++ es else vLookup m k' := by
  induction m with
  | nil =>
    by_cases h : k = k' <;> simp [updateAddAll, vLookup, h]
  | cons p rest ih =>
    obtain ⟨k0, es0⟩ := p
    by_cases h0 : k0 = k
    · subst h0
      by_cases h : k0 = k' <;> simp [updateAddAll, vLookup, h]
    · by_cases h : k0 = k'
      · subst h
        have : ¬ k = k0 := fun hh => h0 hh.symm
        simp [updateAddAll, vLookup, h0, this]
      · simp [updateAddAll, vLookup, h0, h, ih]

theorem keys_updateAddAll (m : VMap) (k : Str) (es : List MapEntry) :
    (updateAddAll m k es).map Prod.fst = m.map Prod.fst
      ∨ (updateAddAll m k es).map Prod.fst = m.map Prod.fst ++ [k] := by
  induction m with
  | nil => exact Or.inr rfl
  | cons p rest ih =>
    obtain ⟨k0, es0⟩ := p
    by_cases h0 : k0 = k
    · subst h0; simp [updateAddAll]
    · rcases ih with ih | ih <;> simp [updateAddAll, h0, ih]

theorem keysNodup_updateAddAll {m : VMap} (hm : keysNodup m) (k : Str) (es : List MapEntry) :
    keysNodup (updateAddAll m k es) := by
  induction m with
  | nil => simp [updateAddAll, keysNodup]
  | cons p rest ih =>
    obtain ⟨k0, es0⟩ := p
    unfold keysNodup at hm ⊢
    simp only [List.map_cons, List.nodup_cons] at hm
    by_cases h0 : k0 = k
    · subst h0
      simpa [updateAddAll, keysNodup] using hm
    · have hrest := ih hm.2
      rcases keys_updateAddAll rest k es with hk | hk <;>
        simp_all [updateAddAll, h0, keysNodup, List.nodup_append]

theorem keysNodup_vMerge {m : VMap} (other : VMap) (hm : keysNodup m) :
    keysNodup (vMerge m other) := by
  induction other generalizing m with
  | nil => exact hm
  | cons p rest ih =>
    exact ih (keysNodup_updateAddAll hm p.1 p.2)

theorem vLookup_vMerge (m : VMap) {other : VMap} (hother : keysNodup other) (k : Str) :
    vLookup (vMerge m other) k = vLookup m k ++ vLookup other k := by
  induction other generalizing m with
  | nil => simp [vMerge, vLookup]
  | cons p rest ih =>
    obtain ⟨k0, es0⟩ := p
    unfold keysNodup at hother
    simp only [List.map_cons, List.nodup_cons] at hother
    have step : vMerge m ((k0, es0) :: rest) = vMerge (updateAddAll m k0 es0) rest := rfl
    rw [step, ih _ hother.2, vLookup_updateAddAll]
    by_cases h : k0 = k
    · subst h
      rw [if_pos rfl, vLookup_eq_nil_of_not_mem hother.1]
      simp [vLookup]
    · rw [if_neg h]
      simp [vLookup, h]

/-! ### C1: deterministic resolution and merge algebra -/

/-- C1.  For any two CVMs holding the same entries for a key — irrespective of
arrival order and of duplicate application — `Get` returns the identical value
for that key, and `Merge` is commutative, associative, and idempotent at the
level of each key's resolved value.  (The maps are association lists modelling
Go maps, so merge laws carry the pairwise-distinct-keys side conditions that
hold for every real Go map.) -/
theorem C1_get_deterministic_merge_algebra (m1 m2 m3 : VMap) (k : Str) :
    ((∀ e, e ∈ vLookup m1 k ↔ e ∈ vLookup m2 k) → vGet m1 k = vGet m2 k)
    ∧ (keysNodup m1 → keysNodup m2 → vGet (vMerge m1 m2) k = vGet (vMerge m2 m1) k)
    ∧ (keysNodup m2 → keysNodup m3 →
        vGet (vMerge (vMerge m1 m2) m3) k = vGet (vMerge m1 (vMerge m2 m3)) k)
    ∧ (keysNodup m1 → vGet (vMerge m1 m1) k = vGet m1 k) := by
  refine ⟨fun h => getList_congr h, fun h1 h2 => ?_, fun h2 h3 => ?_, fun h1 => ?_⟩
  · unfold vGet
    rw [vLookup_vMerge m1 h2 k, vLookup_vMerge m2 h1 k]
    exact getList_congr (by intro x; simp [List.mem_append]; tauto)
  · unfold vGet
    rw [vLookup_vMerge (vMerge m1 m2) h3 k, vLookup_vMerge m1 h2 k,
      vLookup_vMerge m1 (keysNodup_vMerge m3 h2) k, vLookup_vMerge m2 h3 k,
      List.append_assoc]
  · unfold vGet
    rw [vLookup_vMerge m1 h1 k]
    exact getList_congr (by intro x; simp [List.mem_append])

theorem C1_witness :
    vGet [(['k'], [⟨['a'], 1⟩, ⟨['b'], 1⟩])] ['k']
        = vGet [(['k'], [⟨['b'], 1⟩, ⟨['a'], 1⟩, ⟨['a'], 1⟩])] ['k']
      ∧ vGet (vMerge [(['k'], [⟨['a'], 1⟩])] [(['k'], [⟨['b'], 2⟩])]) ['k']
        = vGet (vMerge [(['k'], [⟨['b'], 2⟩])] [(['k'], [⟨['a'], 1⟩])]) ['k'] := by
  constructor
  · exact (C1_get_deterministic_merge_algebra _ _ [] ['k']).1
      (by intro e; constructor <;> (intro h; simp [vLookup] at h ⊢; tauto))
  · exact (C1_get_deterministic_merge_algebra _ _ [] ['k']).2.1 (by decide) (by decide)

/-! ### C3: monotonicity of local writes -/

/-- Entry versions never exceed the result of the `currentVersion` fold. -/
theorem le_currentVersionFold (init : Int) (l : List MapEntry) :
    init ≤ l.foldl (fun next e => if next < e.version then e.version else next) init
      ∧ ∀ e ∈ l, e.version ≤
        l.foldl (fun next e => if next < e.version then e.version else next) init := by
  induction l generalizing init with
  | nil => exact ⟨le_refl init, by intro e h; cases h⟩
  | cons e rest ih =>
    have hstep : init ≤ (if init < e.version then e.version else init) := by
      split <;> omega
    have hstep2 : e.version ≤ (if init < e.version then e.version else init) := by
      split <;> omega
    refine ⟨le_trans hstep (ih _).1, ?_⟩
    intro x hx
    rcases List.mem_cons.mp hx with rfl | hx
    · exact le_trans hstep2 (ih _).1
    · exact (ih _).2 x hx

/-- For arguments already in the int64 range, the wrap is the identity. -/
theorem wrap64_eq_self {n : Int} (h1 : -(2 ^ 63) ≤ n) (h2 : n < 2 ^ 63) :
    wrap64 n = n := by
  unfold wrap64
  omega

/-- C3, corrected.  A local `Set`/`UnSet` on key `k` appends an entry whose
version is `nextVersion k`, Go's int64 `currentVersion k + 1`.  Provided
`currentVersion k` is below `MaxInt64 = 2^63 - 1` — so the int64 increment
does not wrap to `MinInt64` — that version is strictly greater than every
version previously in `k`'s own history.  It need not exceed the map-wide
`LatestVersion()`; see the counterexample. -/
theorem C3_local_write_monotone_per_key (m : VMap) (k v : Str) :
    vLookup (vSet m k v) k = vLookup m k ++ [⟨v, nextVersion m k⟩]
    ∧ vLookup (vUnSet m k) k = vLookup m k ++ [⟨[], nextVersion m k⟩]
    ∧ (currentVersion m k < 2 ^ 63 - 1 →
        ∀ e ∈ vLookup m k, e.version < nextVersion m k) := by
  refine ⟨?_, ?_, ?_⟩
  · rw [vSet, setVersion, vLookup_updateAdd, if_pos rfl]
  · rw [vUnSet, unSetVersion, vLookup_updateAdd, if_pos rfl]
  · intro hcv e he
    have hle : e.version ≤ currentVersion m k :=
      (le_currentVersionFold 0 (vLookup m k)).2 e he
    have h0 : (0 : Int) ≤ currentVersion m k :=
      (le_currentVersionFold 0 (vLookup m k)).1
    have hw : nextVersion m k = currentVersion m k + 1 :=
      wrap64_eq_self (by omega) (by omega)
    omega

theorem C3_witness :
    vLookup (vSet [] ['k'] ['x']) ['k'] = [⟨['x'], 1⟩]
    ∧ (3 : Int) < nextVersion [(['k'], [⟨['x'], 3⟩])] ['k'] := by
  constructor
  · have h := (C3_local_write_monotone_per_key [] ['k'] ['x']).1
    rw [h]
    decide
  · exact (C3_local_write_monotone_per_key [(['k'], [⟨['x'], 3⟩])] ['k'] ['y']).2.2
      (by decide) ⟨['x'], 3⟩ (by decide)

/-- C3 counterexample: with key "a" at version 5 in the map, a local `Set` on
key "b" assigns version 1, which is not greater than the prior
`LatestVersion() = 5`. -/
theorem C3_counterexample :
    vLookup (vSet [(['a'], [⟨['x'], 5⟩])] ['b'] ['y']) ['b'] = [⟨['y'], 1⟩]
    ∧ latestVersion [(['a'], [⟨['x'], 5⟩])] = 5
    ∧ ¬ (latestVersion [(['a'], [⟨['x'], 5⟩])] < 1) := by
  refine ⟨by decide, by decide, by decide⟩

theorem entMax_eq_getStep : entMax = getStep := by
  funext a b
  rw [getStep_eq_max]
  rfl

/-- When some entry has a nonnegative version, the zero-valued sentinel that
`Get` starts its scan from does not influence the result. -/
theorem getFold_sentinel (h : MapEntry) (rest : List MapEntry)
    (hex : ∃ e ∈ h :: rest, 0 ≤ e.version) :
    getFold ⟨[], 0⟩ (h :: rest) = getFold h rest := by
  obtain ⟨e, he, hev⟩ := hex
  have hub : ∀ x ∈ h :: rest, entLe x (getFold h rest) := by
    intro x hx
    rcases List.mem_cons.mp hx with rfl | hx
    · exact entLe_init_getFold x rest
    · exact entLe_mem_getFold h rest x hx
  have hmem2 : getFold h rest ∈ h :: rest := by
    rcases getFold_mem h rest with h' | h'
    · rw [h']; exact List.mem_cons_self _ _
    · exact List.mem_cons_of_mem _ h'
  have hge : entLe (getFold h rest) (getFold ⟨[], 0⟩ (h :: rest)) :=
    entLe_mem_getFold _ _ _ hmem2
  have hle : entLe (getFold ⟨[], 0⟩ (h :: rest)) (getFold h rest) := by
    rcases getFold_mem ⟨[], 0⟩ (h :: rest) with h1 | h1
    · have hsent : entLe e ⟨[], 0⟩ := by
        rw [← h1]; exact entLe_mem_getFold _ _ _ he
      unfold entLe entLt at hsent
      push_neg at hsent
      simp only [show (⟨[], 0⟩ : MapEntry).version = 0 from rfl,
        show (⟨[], 0⟩ : MapEntry).value = [] from rfl] at hsent
      have hv0 : e.version = 0 := le_antisymm hsent.1 hev
      have hval : e.value = [] := le_antisymm (hsent.2 hv0.symm) List.nil_le
      have hes : e = ⟨[], 0⟩ := by cases e; simp_all
      rw [h1, ← hes]
      exact hub e he
    · exact hub _ h1
  exact entLt_connex hge hle

/-- C4, corrected.  `Get` returns the empty string on an empty history; when
some entry of the key carries a nonnegative version, it returns the value of
the entry with the highest version, a tie broken by the lexicographically
greatest value (`specResolve`).  When every version of a non-empty history is
negative the claimed rule fails, because the scan starts from the zero-valued
sentinel entry; see the counterexample. -/
theorem C4_get_resolution (m : VMap) (k : Str) :
    (vLookup m k = [] → vGet m k = [])
    ∧ ((∃ e ∈ vLookup m k, 0 ≤ e.version) → vGet m k = specResolve (vLookup m k)) := by
  constructor
  · intro h
    unfold vGet
    rw [h]
    rfl
  · intro hex
    unfold vGet
    rcases hl : vLookup m k with _ | ⟨h, rest⟩
    · rw [hl] at hex
      simp at hex
    · rw [hl] at hex
      show (getFold ⟨[], 0⟩ (h :: rest)).value = specResolve (h :: rest)
      rw [getFold_sentinel h rest hex]
      unfold specResolve
      rw [entMax_eq_getStep]
      rfl

theorem C4_witness :
    vGet [(['k'], [⟨['a'], 1⟩, ⟨['b'], 1⟩, ⟨['c'], 0⟩])] ['k']
      = specResolve (vLookup [(['k'], [⟨['a'], 1⟩, ⟨['b'], 1⟩, ⟨['c'], 0⟩])] ['k']) :=
  (C4_get_resolution [(['k'], [⟨['a'], 1⟩, ⟨['b'], 1⟩, ⟨['c'], 0⟩])] ['k']).2 (by decide)

/-- C4 counterexample: a key whose single entry has version -1.  The entry
with the highest version holds value "x", but `Get` returns the empty
string. -/
theorem C4_counterexample :
    vGet [(['k'], [⟨['x'], -1⟩])] ['k'] = []
    ∧ specResolve (vLookup [(['k'], [⟨['x'], -1⟩])] ['k']) = ['x']
    ∧ vGet [(['k'], [⟨['x'], -1⟩])] ['k']
        ≠ specResolve (vLookup [(['k'], [⟨['x'], -1⟩])] ['k']) := by
  refine ⟨by decide, by decide, by decide⟩

/-! ### C10: entries with negative versions are never selected -/

theorem getStep_sentinel_neg {e : MapEntry} (he : e.version < 0) :
    getStep ⟨[], 0⟩ e = ⟨[], 0⟩ := by
  rw [getStep_eq_max, if_neg]
  unfold entLt
  simp only [show (⟨[], 0⟩ : MapEntry).version = 0 from rfl,
    show (⟨[], 0⟩ : MapEntry).value = [] from rfl]
  push_neg
  exact ⟨by omega, fun h0 => absurd h0 (by omega)⟩

/-- C10.  An entry with a negative version is never selected by `Get`: when
every entry of a key has version < 0, `Get` returns the empty string even
though the history is non-empty, while an entry at version exactly 0 still
wins through the value tie-break when its value dominates. -/
theorem C10_negative_versions_never_selected (m : VMap) (k : Str) :
    ((∀ e ∈ vLookup m k, e.version < 0) → vGet m k = [])
    ∧ (∀ e ∈ vLookup m k, e.version = 0 →
        (∀ x ∈ vLookup m k, x.version ≤ 0) →
        (∀ x ∈ vLookup m k, x.value ≤ e.value) → vGet m k = e.value) := by
  constructor
  · intro hneg
    unfold vGet
    show (getFold ⟨[], 0⟩ (vLookup m k)).value = []
    have : getFold ⟨[], 0⟩ (vLookup m k) = ⟨[], 0⟩ := by
      generalize vLookup m k = l at hneg
      induction l with
      | nil => rfl
      | cons e rest ih =>
        show getFold (getStep ⟨[], 0⟩ e) rest = _
        rw [getStep_sentinel_neg (hneg e (List.mem_cons_self e rest))]
        exact ih (fun x hx => hneg x (List.mem_cons_of_mem _ hx))
    rw [this]
  · intro e he hv0 hver hval
    unfold vGet
    show (getFold ⟨[], 0⟩ (vLookup m k)).value = e.value
    have hub : ∀ x ∈ vLookup m k, entLe x e := by
      intro x hx
      intro hlt
      rcases hlt with hlt | ⟨heq, hvlt⟩
      · exact absurd hlt (by have := hver x hx; omega)
      · exact absurd hvlt (not_lt.mpr (hval x hx))
    have h1 : entLe (getFold ⟨[], 0⟩ (vLookup m k)) e := by
      rcases getFold_mem ⟨[], 0⟩ (vLookup m k) with h' | h'
      · rw [h']
        intro hlt
        rcases hlt with hlt | ⟨heq, hvlt⟩
        · simp only [show (⟨[], 0⟩ : MapEntry).version = 0 from rfl] at hlt
          omega
        · exact absurd hvlt (not_lt.mpr List.nil_le)
      · exact hub _ h'
    have h2 : entLe e (getFold ⟨[], 0⟩ (vLookup m k)) :=
      entLe_mem_getFold _ _ _ he
    rw [entLt_connex h2 h1]

theorem digitChar_mem_decDigits (d : Nat) : digitChar d ∈ decDigits := by
  unfold digitChar
  split <;> decide

theorem digitVal_digitChar {d : Nat} (hd : d ≤ 9) : digitVal (digitChar d) = d := by
  interval_cases d <;> rfl

theorem natToDigitsAux_mem {fuel n : Nat} : ∀ c ∈ natToDigitsAux fuel n, c ∈ decDigits := by
  induction fuel generalizing n with
  | zero =>
    intro c hc
    simp only [natToDigitsAux, List.mem_singleton] at hc
    exact hc ▸ digitChar_mem_decDigits n
  | succ fuel ih =>
    intro c hc
    unfold natToDigitsAux at hc
    split at hc
    · simp only [List.mem_singleton] at hc
      exact hc ▸ digitChar_mem_decDigits n
    · rcases List.mem_append.mp hc with hc | hc
      · exact ih c hc
      · simp only [List.mem_singleton] at hc
        exact hc ▸ digitChar_mem_decDigits (n % 10)

theorem natToDigitsAux_ne_nil (fuel n : Nat) : natToDigitsAux fuel n ≠ [] := by
  cases fuel with
  | zero => simp [natToDigitsAux]
  | succ fuel =>
    unfold natToDigitsAux
    split <;> simp

theorem parseNatDigits_of_ne_nil {s : Str} (h : s ≠ []) :
    parseNatDigits s = s.foldl pstep (some 0) := by
  unfold parseNatDigits
  rw [if_neg]
  simpa using h

theorem pstep_some (a : Nat) (c : Char) :
    pstep (some a) c = if digitVal c ≤ 9 then some (a * 10 + digitVal c) else none := rfl

theorem parseNatDigits_natToDigitsAux {fuel n : Nat} (h : n ≤ fuel ∨ n < 10) :
    parseNatDigits (natToDigitsAux fuel n) = some n := by
  induction fuel generalizing n with
  | zero =>
    have h10 : n < 10 := by rcases h with h | h <;> omega
    show parseNatDigits [digitChar n] = some n
    rw [parseNatDigits_of_ne_nil (by simp)]
    show pstep (some 0) (digitChar n) = some n
    rw [pstep_some, digitVal_digitChar (by omega : n ≤ 9), if_pos (by omega : n ≤ 9)]
    congr 1
    omega
  | succ fuel ih =>
    unfold natToDigitsAux
    split
    · next h10 =>
      rw [parseNatDigits_of_ne_nil (by simp)]
      show pstep (some 0) (digitChar n) = some n
      rw [pstep_some, digitVal_digitChar (by omega : n ≤ 9), if_pos (by omega : n ≤ 9)]
      congr 1
      omega
    · next h10 =>
      push_neg at h10
      rcases h with h | h
      · have hdiv : n / 10 ≤ fuel ∨ n / 10 < 10 := by
          left
          have := Nat.div_lt_self (by omega : 0 < n) (by omega : 1 < 10)
          omega
        have hrec := ih hdiv
        rw [parseNatDigits_of_ne_nil (by simp), List.foldl_append]
        rw [parseNatDigits_of_ne_nil (natToDigitsAux_ne_nil fuel (n / 10))] at hrec
        rw [hrec, List.foldl_cons, List.foldl_nil, pstep_some,
          digitVal_digitChar (by omega : n % 10 ≤ 9), if_pos (by omega : n % 10 ≤ 9)]
        congr 1
        omega
      · exact absurd h (by omega)

theorem parseNatDigits_natToDigits (n : Nat) : parseNatDigits (natToDigits n) = some n :=
  parseNatDigits_natToDigitsAux (Or.inl (le_refl n))

theorem natToDigits_head_not_sign {n : Nat} :
    ∀ c ∈ natToDigits n, c ≠ '-' ∧ c ≠ '+' ∧ c ≠ ':' := by
  intro c hc
  have hmem := natToDigitsAux_mem c hc
  simp only [decDigits, List.mem_cons, List.mem_singleton, List.not_mem_nil,
    or_false] at hmem
  rcases hmem with rfl | rfl | rfl | rfl | rfl | rfl | rfl | rfl | rfl | rfl <;> decide

theorem parseInt_formatInt (v : Int) : parseInt (formatInt v) = some v := by
  unfold formatInt
  split
  · next hneg =>
    show parseInt ('-' :: natToDigits v.natAbs) = some v
    simp only [parseInt, if_pos rfl, parseNatDigits_natToDigits]
    show some (-(v.natAbs : Int)) = some v
    congr 1
    omega
  · next hpos =>
    rcases hd : natToDigits v.toNat with _ | ⟨c, rest⟩
    · exact absurd hd (natToDigitsAux_ne_nil _ _)
    · have hc : c ≠ '-' ∧ c ≠ '+' ∧ c ≠ ':' :=
        natToDigits_head_not_sign c (by rw [hd]; exact List.mem_cons_self _ _)
      simp only [parseInt, if_neg hc.1, if_neg hc.2.1]
      rw [← hd, parseNatDigits_natToDigits]
      show some ((v.toNat : Int)) = some v
      congr 1
      omega

theorem formatInt_injective {a b : Int} (h : formatInt a = formatInt b) : a = b := by
  have ha := parseInt_formatInt a
  have hb := parseInt_formatInt b
  rw [h, hb] at ha
  exact (Option.some_injective _ ha).symm

/-- No colon occurs in a formatted integer. -/
theorem colon_not_mem_formatInt (v : Int) : ':' ∉ formatInt v := by
  intro hmem
  unfold formatInt at hmem
  split at hmem
  · rcases List.mem_cons.mp hmem with h | h
    · cases h
    · exact (natToDigits_head_not_sign ':' h).2.2 rfl
  · exact (natToDigits_head_not_sign ':' hmem).2.2 rfl

theorem splitOnColon_ne_nil (s : Str) : splitOnColon s ≠ [] := by
  cases s with
  | nil => simp [splitOnColon]
  | cons c rest =>
    rcases hs : splitOnColon rest with _ | ⟨g, gs⟩
    · simp [splitOnColon, hs]
    · simp only [splitOnColon, hs]
      split <;> simp

theorem splitOnColon_colonFree {s : Str} (h : colonFree s) : splitOnColon s = [s] := by
  induction s with
  | nil => rfl
  | cons c rest ih =>
    unfold colonFree at h
    simp only [List.mem_cons] at h
    push_neg at h
    have hrest := ih h.2
    unfold splitOnColon
    rw [hrest]
    simp [Ne.symm h.1]

theorem splitOnColon_append {a : Str} (b : Str) (h : colonFree a) :
    splitOnColon (a ++ ':' :: b) = a :: splitOnColon b := by
  induction a with
  | nil =>
    rcases hb : splitOnColon b with _ | ⟨g, gs⟩
    · exact absurd hb (splitOnColon_ne_nil b)
    · simp [splitOnColon, hb]
  | cons c rest ih =>
    unfold colonFree at h
    simp only [List.mem_cons] at h
    push_neg at h
    have hrec := ih h.2
    show splitOnColon (c :: (rest ++ ':' :: b)) = (c :: rest) :: splitOnColon b
    simp only [splitOnColon, hrec]
    simp [Ne.symm h.1]

theorem colonFree_opOf (e : MapEntry) : colonFree (opOf e) := by
  unfold opOf
  split <;> decide

theorem splitOnColon_wireKey {k : Str} (op : Str) (version : Int)
    (hk : colonFree k) (hop : colonFree op) :
    splitOnColon (wireKey k op version) = [k, op, formatInt version] := by
  unfold wireKey
  rw [splitOnColon_append _ hk, splitOnColon_append _ hop,
    splitOnColon_colonFree (colon_not_mem_formatInt version)]

/-- Unmarshalling the record marshalled for entry `e` of a colon-free key `k`
recovers exactly `(k, e)`. -/
theorem parseRecord_entryRecord {k : Str} (e : MapEntry) (hk : colonFree k) :
    parseRecord (entryRecord k e) = some (k, e) := by
  have hsplit := splitOnColon_wireKey (opOf e) e.version hk (colonFree_opOf e)
  unfold parseRecord entryRecord
  simp only [hsplit, List.getD_cons_succ, List.getD_cons_zero, parseInt_formatInt]
  by_cases hv : e.value = []
  · have hop : opOf e = ['u'] := by simp [opOf, hv]
    rw [hop, if_neg (by decide), ← hv]
  · have hop : opOf e = ['s'] := by simp [opOf, hv]
    rw [hop, if_pos rfl]

/-! ### Membership in the built wire map -/

theorem wireInsert_cons_eq (k0 v0 : Str) (rest : List (Str × Str)) (v : Str) :
    wireInsert ((k0, v0) :: rest) k0 v = (k0, v) :: rest := by
  show (if k0 = k0 then (k0, v) :: rest else (k0, v0) :: wireInsert rest k0 v)
    = (k0, v) :: rest
  rw [if_pos rfl]

theorem wireInsert_cons_ne {k0 k : Str} (h : k0 ≠ k) (v0 : Str)
    (rest : List (Str × Str)) (v : Str) :
    wireInsert ((k0, v0) :: rest) k v = (k0, v0) :: wireInsert rest k v := by
  show (if k0 = k then (k0, v) :: rest else (k0, v0) :: wireInsert rest k v)
    = (k0, v0) :: wireInsert rest k v
  rw [if_neg h]

theorem mem_wireKeys_wireInsert {l : List (Str × Str)} {k v : Str} (k' : Str) :
    k' ∈ wireKeys (wireInsert l k v) ↔ k' = k ∨ k' ∈ wireKeys l := by
  induction l with
  | nil => simp [wireInsert, wireKeys]
  | cons p rest ih =>
    obtain ⟨k0, v0⟩ := p
    by_cases h : k0 = k
    · subst h
      rw [wireInsert_cons_eq]
      simp only [wireKeys, List.map_cons, List.mem_cons]
      tauto
    · rw [wireInsert_cons_ne h]
      simp only [wireKeys, List.map_cons, List.mem_cons] at ih ⊢
      rw [ih]
      tauto

theorem wireNodup_wireInsert {l : List (Str × Str)} (h : wireNodup l) (k v : Str) :
    wireNodup (wireInsert l k v) := by
  induction l with
  | nil => simp [wireInsert, wireNodup]
  | cons p rest ih =>
    obtain ⟨k0, v0⟩ := p
    unfold wireNodup at h ⊢
    simp only [List.map_cons, List.nodup_cons] at h
    by_cases hk : k0 = k
    · subst hk
      rw [wireInsert_cons_eq]
      simp only [List.map_cons, List.nodup_cons]
      exact ⟨h.1, h.2⟩
    · rw [wireInsert_cons_ne hk]
      simp only [List.map_cons, List.nodup_cons]
      refine ⟨?_, ih h.2⟩
      intro hmem
      rcases (mem_wireKeys_wireInsert k0).mp hmem with rfl | hmem
      · exact hk rfl
      · exact h.1 hmem

theorem mem_wireInsert {l : List (Str × Str)} (hnd : wireNodup l) (k v : Str)
    (r : Str × Str) :
    r ∈ wireInsert l k v ↔ r = (k, v) ∨ (r ∈ l ∧ r.1 ≠ k) := by
  induction l with
  | nil => simp [wireInsert]
  | cons p rest ih =>
    obtain ⟨k0, v0⟩ := p
    unfold wireNodup at hnd
    simp only [List.map_cons, List.nodup_cons] at hnd
    by_cases hk : k0 = k
    · subst hk
      rw [wireInsert_cons_eq]
      constructor
      · intro hr
        rcases List.mem_cons.mp hr with rfl | hr
        · exact Or.inl rfl
        · right
          refine ⟨List.mem_cons_of_mem _ hr, ?_⟩
          intro h1
          exact hnd.1 (h1 ▸ (List.mem_map_of_mem Prod.fst hr))
      · intro hr
        rcases hr with rfl | ⟨hr, hne⟩
        · exact List.mem_cons_self _ _
        · rcases List.mem_cons.mp hr with rfl | hr
          · exact absurd rfl hne
          · exact List.mem_cons_of_mem _ hr
    · rw [wireInsert_cons_ne hk]
      constructor
      · intro hr
        rcases List.mem_cons.mp hr with rfl | hr
        · exact Or.inr ⟨List.mem_cons_self _ _, fun hh => hk hh⟩
        · rcases (ih hnd.2).mp hr with rfl | ⟨hr2, hne⟩
          · exact Or.inl rfl
          · exact Or.inr ⟨List.mem_cons_of_mem _ hr2, hne⟩
      · intro hr
        rcases hr with rfl | ⟨hr, hne⟩
        · exact List.mem_cons_of_mem _ ((ih hnd.2).mpr (Or.inl rfl))
        · rcases List.mem_cons.mp hr with rfl | hr
          · exact List.mem_cons_self _ _
          · exact List.mem_cons_of_mem _ ((ih hnd.2).mpr (Or.inr ⟨hr, hne⟩))

theorem wireNodup_wireFold {acc : List (Str × Str)} (rs : List (Str × Str))
    (h : wireNodup acc) : wireNodup (wireFold acc rs) := by
  induction rs generalizing acc with
  | nil => exact h
  | cons r rest ih => exact ih (wireNodup_wireInsert h r.1 r.2)

theorem mem_wireKeys_wireFold {acc : List (Str × Str)} (rs : List (Str × Str)) (k : Str) :
    k ∈ wireKeys (wireFold acc rs) ↔ k ∈ wireKeys acc ∨ k ∈ wireKeys rs := by
  induction rs generalizing acc with
  | nil => simp [wireFold, wireKeys]
  | cons r rest ih =>
    show k ∈ wireKeys (wireFold (wireInsert acc r.1 r.2) rest) ↔ _
    rw [ih, mem_wireKeys_wireInsert]
    simp only [wireKeys, List.map_cons, List.mem_cons]
    tauto

theorem mem_wireFold {acc rs : List (Str × Str)} (hnd : wireNodup acc)
    (hcoh : coherent (acc ++ rs)) (r : Str × Str) :
    r ∈ wireFold acc rs ↔ r ∈ acc ∨ r ∈ rs := by
  induction rs generalizing acc with
  | nil => simp [wireFold]
  | cons r0 rest ih =>
    have hnd' := wireNodup_wireInsert hnd r0.1 r0.2
    have hsub : ∀ x ∈ wireInsert acc r0.1 r0.2, x ∈ acc ++ (r0 :: rest) := by
      intro x hx
      rcases (mem_wireInsert hnd r0.1 r0.2 x).mp hx with rfl | ⟨hx, _⟩
      · exact List.mem_append.mpr (Or.inr (List.mem_cons_self _ _))
      · exact List.mem_append.mpr (Or.inl hx)
    have hcoh' : coherent ((wireInsert acc r0.1 r0.2) ++ rest) := by
      intro x hx y hy hxy
      have hx' : x ∈ acc ++ (r0 :: rest) := by
        rcases List.mem_append.mp hx with hx | hx
        · exact hsub x hx
        · exact List.mem_append.mpr (Or.inr (List.mem_cons_of_mem _ hx))
      have hy' : y ∈ acc ++ (r0 :: rest) := by
        rcases List.mem_append.mp hy with hy | hy
        · exact hsub y hy
        · exact List.mem_append.mpr (Or.inr (List.mem_cons_of_mem _ hy))
      exact hcoh x hx' y hy' hxy
    have hstep : wireFold acc (r0 :: rest) = wireFold (wireInsert acc r0.1 r0.2) rest := rfl
    rw [hstep, ih hnd' hcoh', mem_wireInsert hnd r0.1 r0.2 r]
    constructor
    · rintro ((rfl | ⟨hr, _⟩) | hr)
      · exact Or.inr (List.mem_cons_self _ _)
      · exact Or.inl hr
      · exact Or.inr (List.mem_cons_of_mem _ hr)
    · rintro (hr | hr)
      · by_cases hne : r.1 = r0.1
        · have h2 : r.2 = r0.2 :=
            hcoh r (List.mem_append.mpr (Or.inl hr)) r0
              (List.mem_append.mpr (Or.inr (List.mem_cons_self _ _))) hne
          exact Or.inl (Or.inl (Prod.ext_iff.mpr ⟨hne, h2⟩))
        · exact Or.inl (Or.inr ⟨hr, hne⟩)
      · rcases List.mem_cons.mp hr with rfl | hr
        · exact Or.inl (Or.inl rfl)
        · exact Or.inr hr

theorem marshalStep_eq (acc : List (Str × Str)) (p : Str × List MapEntry) :
    marshalStep acc p = wireFold acc (p.2.map (entryRecord p.1)) := by
  unfold marshalStep wireFold
  rw [List.foldl_map]
  rfl

theorem foldl_marshalStep_eq (m : VMap) :
    ∀ acc, m.foldl marshalStep acc = wireFold acc (records m) := by
  induction m with
  | nil => intro acc; rfl
  | cons p rest ih =>
    intro acc
    show rest.foldl marshalStep (marshalStep acc p) = wireFold acc (records (p :: rest))
    rw [ih, marshalStep_eq]
    unfold records
    rw [List.flatMap_cons]
    unfold wireFold
    rw [List.foldl_append]

theorem marshalMap_eq_wireFold (m : VMap) : marshalMap m = wireFold [] (records m) :=
  foldl_marshalStep_eq m []

theorem marshalExpiredStep_eq (m : VMap) (age : Int) (acc : List (Str × Str))
    (p : Str × List MapEntry) :
    marshalExpiredStep m age acc p
      = wireFold acc
          ((p.2.filter (fun e =>
              decide (e.version < wrap64 (currentVersion m p.1 - age)))).map
            (entryRecord p.1)) := by
  obtain ⟨k, es⟩ := p
  unfold marshalExpiredStep
  induction es generalizing acc with
  | nil => rfl
  | cons e rest ih =>
    show rest.foldl _ (if wrap64 (currentVersion m k - age) ≤ e.version then acc
        else wireInsert acc (wireKey k (opOf e) e.version) e.value) = _
    by_cases hc : wrap64 (currentVersion m k - age) ≤ e.version
    · rw [if_pos hc, List.filter_cons_of_neg (by simp; omega)]
      exact ih acc
    · rw [if_neg hc, List.filter_cons_of_pos (by simp; omega)]
      exact ih _

theorem foldl_marshalExpiredStep_eq (m0 : VMap) (age : Int) (m : VMap) :
    ∀ acc, m.foldl (marshalExpiredStep m0 age) acc = wireFold acc (m.flatMap (fun p =>
      (p.2.filter (fun e =>
          decide (e.version < wrap64 (currentVersion m0 p.1 - age)))).map
        (entryRecord p.1))) := by
  induction m with
  | nil => intro acc; rfl
  | cons p rest ih =>
    intro acc
    show rest.foldl (marshalExpiredStep m0 age) (marshalExpiredStep m0 age acc p) = _
    rw [ih, marshalExpiredStep_eq]
    rw [List.flatMap_cons]
    unfold wireFold
    rw [List.foldl_append]

theorem marshalExpiredMap_eq_wireFold (m : VMap) (age : Int) :
    marshalExpiredMap m age = wireFold [] (expiredRecords m age) :=
  foldl_marshalExpiredStep_eq m age m []

/-! ### Unmarshalling a record batch -/

theorem unmarshal_lookup (rs : List (Str × Str)) (m : VMap)
    (h : ∀ r ∈ rs, (parseRecord r).isSome) :
    ∃ m', unmarshalMap m rs = some m'
      ∧ ∀ k, vLookup m' k
          = vLookup m k
            ++ ((rs.filterMap parseRecord).filter (fun p => decide (p.1 = k))).map
                Prod.snd := by
  induction rs generalizing m with
  | nil => exact ⟨m, rfl, fun k => by simp⟩
  | cons r rest ih =>
    have hr := h r (List.mem_cons_self _ _)
    rcases hp : parseRecord r with _ | ⟨k0, e0⟩
    · rw [hp] at hr
      cases hr
    · obtain ⟨m', hm', hlook⟩ :=
        ih (updateAdd m k0 e0) (fun x hx => h x (List.mem_cons_of_mem _ hx))
      refine ⟨m', ?_, ?_⟩
      · show unmarshalMap m (r :: rest) = some m'
        rw [show unmarshalMap m (r :: rest)
            = match parseRecord r with
              | none => none
              | some (k, e) => unmarshalMap (updateAdd m k e) rest from rfl, hp]
        exact hm'
      · intro k
        rw [hlook k, vLookup_updateAdd, List.filterMap_cons_some hp]
        by_cases hk : k0 = k
        · subst hk
          rw [if_pos rfl, List.filter_cons_of_pos (by simp)]
          simp
        · rw [if_neg hk, List.filter_cons_of_neg (by simp [hk])]

/-! ### C2: the marshal/unmarshal round trip -/

theorem vLookup_of_mem {m : VMap} (h1 : keysNodup m) {k : Str} {es : List MapEntry}
    (hmem : (k, es) ∈ m) : vLookup m k = es := by
  induction m with
  | nil => cases hmem
  | cons p rest ih =>
    obtain ⟨k0, es0⟩ := p
    unfold keysNodup at h1
    simp only [List.map_cons, List.nodup_cons] at h1
    rcases List.mem_cons.mp hmem with heq | hmem
    · obtain ⟨rfl, rfl⟩ := Prod.mk.injEq .. ▸ heq
      · simp [vLookup]
    · have hk : k0 ≠ k := by
        rintro rfl
        exact h1.1 (List.mem_map_of_mem Prod.fst hmem)
      simp only [vLookup, if_neg hk]
      exact ih h1.2 hmem

theorem vLookup_self_mem (m : VMap) (k : Str) :
    vLookup m k = [] ∨ (k, vLookup m k) ∈ m := by
  induction m with
  | nil => exact Or.inl rfl
  | cons p rest ih =>
    obtain ⟨k0, es0⟩ := p
    by_cases hk : k0 = k
    · subst hk
      simp [vLookup]
    · simp only [vLookup, if_neg hk]
      rcases ih with h | h
      · exact Or.inl h
      · exact Or.inr (List.mem_cons_of_mem _ h)

theorem mem_vLookup_iff {m : VMap} (h1 : keysNodup m) (k : Str) (e : MapEntry) :
    e ∈ vLookup m k ↔ ∃ es, (k, es) ∈ m ∧ e ∈ es := by
  constructor
  · intro he
    rcases vLookup_self_mem m k with h | h
    · rw [h] at he
      cases he
    · exact ⟨vLookup m k, h, he⟩
  · rintro ⟨es, hmem, he⟩
    rw [vLookup_of_mem h1 hmem]
    exact he

theorem wireKey_inj {k1 k2 op1 op2 : Str} {v1 v2 : Int}
    (hk1 : colonFree k1) (hk2 : colonFree k2)
    (hop1 : colonFree op1) (hop2 : colonFree op2)
    (h : wireKey k1 op1 v1 = wireKey k2 op2 v2) :
    k1 = k2 ∧ op1 = op2 ∧ v1 = v2 := by
  have hsplit := congrArg splitOnColon h
  rw [splitOnColon_wireKey op1 v1 hk1 hop1, splitOnColon_wireKey op2 v2 hk2 hop2] at hsplit
  simp only [List.cons.injEq, and_true] at hsplit
  exact ⟨hsplit.1, hsplit.2.1, formatInt_injective hsplit.2.2⟩

theorem mem_records {m : VMap} (r : Str × Str) :
    r ∈ records m ↔ ∃ p, p ∈ m ∧ ∃ e, e ∈ p.2 ∧ entryRecord p.1 e = r := by
  unfold records
  simp [List.mem_flatMap, List.mem_map]

theorem records_coherent {m : VMap} (h1 : keysNodup m) (h2 : ∀ p ∈ m, colonFree p.1)
    (h3 : ∀ p ∈ m, ∀ e1 ∈ p.2, ∀ e2 ∈ p.2,
      e1.version = e2.version → opOf e1 = opOf e2 → e1.value = e2.value) :
    coherent (records m) := by
  intro r1 hr1 r2 hr2 hk
  obtain ⟨p1, hp1, e1, he1, rfl⟩ := (mem_records r1).mp hr1
  obtain ⟨p2, hp2, e2, he2, rfl⟩ := (mem_records r2).mp hr2
  obtain ⟨hkk, hop, hver⟩ :=
    wireKey_inj (h2 p1 hp1) (h2 p2 hp2) (colonFree_opOf e1) (colonFree_opOf e2) hk
  have hsame : p1.2 = p2.2 := by
    have l1 : vLookup m p1.1 = p1.2 := vLookup_of_mem h1 hp1
    have l2 : vLookup m p2.1 = p2.2 := vLookup_of_mem h1 hp2
    rw [← l1, ← l2, hkk]
  exact h3 p1 hp1 e1 he1 e2 (hsame ▸ he2) hver hop

/-- C2, corrected.  For a CVM whose keys contain no ':' and in which no two
entries of the same key share both a version and a set/unset kind while
holding different values, `UnmarshalMap` of `MarshalMap`'s output on a fresh
map succeeds and reproduces a map whose `Get` matches the original on every
key.  Without those restrictions the round trip fails: see the
counterexample, where two same-version sets collide on one wire key and the
later entry overwrites the earlier one. -/
theorem C2_roundtrip_get (m : VMap) (h1 : keysNodup m)
    (h2 : ∀ p ∈ m, colonFree p.1)
    (h3 : ∀ p ∈ m, ∀ e1 ∈ p.2, ∀ e2 ∈ p.2,
      e1.version = e2.version → opOf e1 = opOf e2 → e1.value = e2.value) :
    ∃ m', unmarshalMap [] (marshalMap m) = some m' ∧ ∀ k, vGet m' k = vGet m k := by
  have hcoh : coherent (records m) := records_coherent h1 h2 h3
  have hcoh' : coherent (([] : List (Str × Str)) ++ records m) := by
    intro a ha b hb
    simp only [List.nil_append] at ha hb
    exact hcoh a ha b hb
  have hmemW : ∀ r, r ∈ marshalMap m ↔ r ∈ records m := by
    intro r
    rw [marshalMap_eq_wireFold m]
    have := @mem_wireFold [] (records m) (by simp [wireNodup]) hcoh' r
    simpa using this
  have hparse : ∀ r ∈ records m, ∃ kp, parseRecord r = some kp
      ∧ ∃ es, (kp.1, es) ∈ m ∧ kp.2 ∈ es := by
    intro r hr
    obtain ⟨p, hp, e, he, rfl⟩ := (mem_records r).mp hr
    refine ⟨(p.1, e), parseRecord_entryRecord e (h2 p hp), p.2, ?_, he⟩
    exact hp
  have hsome : ∀ r ∈ marshalMap m, (parseRecord r).isSome := by
    intro r hr
    obtain ⟨kp, hkp, _⟩ := hparse r ((hmemW r).mp hr)
    rw [hkp]
    rfl
  obtain ⟨m', hu, hlook⟩ := unmarshal_lookup (marshalMap m) [] hsome
  refine ⟨m', hu, ?_⟩
  intro k
  have hmem_iff : ∀ e, e ∈ vLookup m' k ↔ e ∈ vLookup m k := by
    intro e
    rw [hlook k]
    show e ∈ ([] : List MapEntry)
        ++ (((marshalMap m).filterMap parseRecord).filter
            (fun p => decide (p.1 = k))).map Prod.snd ↔ _
    rw [List.nil_append]
    constructor
    · intro he
      obtain ⟨p, hpf, rfl⟩ := List.mem_map.mp he
      have hpm := List.mem_filter.mp hpf
      have hk : p.1 = k := by simpa using hpm.2
      obtain ⟨r, hrw, hpr⟩ := List.mem_filterMap.mp hpm.1
      obtain ⟨kp, hkp, es, hes, hin⟩ := hparse r ((hmemW r).mp hrw)
      rw [hkp] at hpr
      obtain rfl := Option.some_injective _ hpr
      rw [mem_vLookup_iff h1]
      exact ⟨es, hk ▸ hes, hin⟩
    · intro he
      obtain ⟨es, hes, hin⟩ := (mem_vLookup_iff h1 k e).mp he
      have hrec : entryRecord k e ∈ marshalMap m := by
        rw [hmemW]
        rw [mem_records]
        exact ⟨(k, es), hes, e, hin, rfl⟩
      have hfm : (k, e) ∈ (marshalMap m).filterMap parseRecord :=
        List.mem_filterMap.mpr ⟨entryRecord k e, hrec,
          parseRecord_entryRecord e (h2 (k, es) hes)⟩
      refine List.mem_map.mpr ⟨(k, e), ?_, rfl⟩
      exact List.mem_filter.mpr ⟨hfm, by simp⟩
  exact getList_congr hmem_iff

theorem C2_witness :
    ∃ m', unmarshalMap []
        (marshalMap [(['k'], [⟨['a'], 1⟩, ⟨[], 2⟩]), (['j'], [⟨['b'], 1⟩])]) = some m'
      ∧ vGet m' ['k'] = vGet [(['k'], [⟨['a'], 1⟩, ⟨[], 2⟩]), (['j'], [⟨['b'], 1⟩])] ['k'] := by
  obtain ⟨m', hu, hg⟩ := C2_roundtrip_get
    [(['k'], [⟨['a'], 1⟩, ⟨[], 2⟩]), (['j'], [⟨['b'], 1⟩])]
    (by decide) (by decide) (by decide)
  exact ⟨m', hu, hg ['k']⟩

/-- C2 counterexample: two same-version sets on one key.  `MarshalMap` keys
both entries by "k:s:1", the later one overwrites the earlier, and the
round-tripped map resolves "k" to "a" while the original resolves it to
"b". -/
theorem C2_counterexample :
    unmarshalMap [] (marshalMap [(['k'], [⟨['b'], 1⟩, ⟨['a'], 1⟩])])
        = some [(['k'], [⟨['a'], 1⟩])]
    ∧ vGet [(['k'], [⟨['a'], 1⟩])] ['k'] = ['a']
    ∧ vGet [(['k'], [⟨['b'], 1⟩, ⟨['a'], 1⟩])] ['k'] = ['b']
    ∧ vGet [(['k'], [⟨['a'], 1⟩])] ['k']
        ≠ vGet [(['k'], [⟨['b'], 1⟩, ⟨['a'], 1⟩])] ['k'] := by
  refine ⟨by decide, by decide, by decide, by decide⟩

/-! ### C5: the expiry query -/

theorem currentVersionFold_le (init V : Int) (l : List MapEntry)
    (h0 : init ≤ V) (h : ∀ e ∈ l, e.version ≤ V) :
    l.foldl (fun next e => if next < e.version then e.version else next) init ≤ V := by
  induction l generalizing init with
  | nil => exact h0
  | cons e rest ih =>
    apply ih
    · have := h e (List.mem_cons_self e rest)
      show (if init < e.version then e.version else init) ≤ V
      split <;> omega
    · exact fun x hx => h x (List.mem_cons_of_mem _ hx)

/-- Presence of an entry's wire key in `MarshalExpiredMap`'s output is exactly
the version-threshold test of the source loop. -/
theorem mem_wireKeys_expired {m : VMap} (age : Int) (h1 : keysNodup m)
    (h2 : ∀ p ∈ m, colonFree p.1)
    {k : Str} {es : List MapEntry} (hmem : (k, es) ∈ m) (e : MapEntry) :
    wireKey k (opOf e) e.version ∈ wireKeys (marshalExpiredMap m age)
      ↔ (∃ e1 ∈ es, e1.version = e.version ∧ opOf e1 = opOf e)
          ∧ e.version < wrap64 (currentVersion m k - age) := by
  rw [marshalExpiredMap_eq_wireFold]
  have hkeys := @mem_wireKeys_wireFold []
    (expiredRecords m age) (wireKey k (opOf e) e.version)
  rw [hkeys]
  have hnil : wireKey k (opOf e) e.version ∉ wireKeys ([] : List (Str × Str)) := by
    simp [wireKeys]
  constructor
  · rintro (habs | hpres)
    · exact absurd habs hnil
    · simp only [wireKeys, expiredRecords, List.mem_map, List.mem_flatMap,
        List.mem_filter] at hpres
      obtain ⟨r, ⟨p, hp, e1, ⟨he1, hpred⟩, rfl⟩, hfst⟩ := hpres
      simp only [decide_eq_true_eq] at hpred
      have hfst' : wireKey p.1 (opOf e1) e1.version = wireKey k (opOf e) e.version := hfst
      obtain ⟨hkk, hop, hver⟩ :=
        wireKey_inj (h2 p hp) (h2 (k, es) hmem) (colonFree_opOf e1) (colonFree_opOf e)
          hfst'
      have hes : p.2 = es := by
        have l1 : vLookup m p.1 = p.2 := vLookup_of_mem h1 hp
        have l2 : vLookup m k = es := vLookup_of_mem h1 hmem
        rw [← l1, hkk, l2]
      refine ⟨⟨e1, hes ▸ he1, hver, hop⟩, ?_⟩
      rw [← hver]
      rw [hkk] at hpred
      exact hpred
  · rintro ⟨⟨e1, he1, hver, hop⟩, hlt⟩
    right
    simp only [wireKeys, expiredRecords, List.mem_map, List.mem_flatMap,
      List.mem_filter]
    refine ⟨entryRecord k e1, ⟨(k, es), hmem, e1, ⟨he1, ?_⟩, rfl⟩, ?_⟩
    · simp only [decide_eq_true_eq]
      omega
    · show wireKey k (opOf e1) e1.version = wireKey k (opOf e) e.version
      rw [hver, hop]

/-- C5, corrected.  For a CVM with colon-free, pairwise-distinct keys,
`MarshalExpiredMap(age)` contains an entry's wire key exactly when the
entry's version is below the int64 value of `currentVersion - age`, where
`currentVersion` is the fold that floors the key's maximum version at 0 and
the subtraction wraps as Go int64 arithmetic.  When the subtraction stays in
the int64 range this threshold is literally `currentVersion - age`, and then
for `age ≥ 0` an entry holding the key's maximum version is never included
**provided that maximum is nonnegative**; a key whose versions are all
negative has its maximum entry included even for nonnegative ages (see the
counterexample), and a negative `age` can also expose the maximum entry.
The map itself is never mutated — `marshalExpiredMap` only reads `m`. -/
theorem C5_expired_threshold (m : VMap) (age : Int) (k : Str) (es : List MapEntry)
    (h1 : keysNodup m) (h2 : ∀ p ∈ m, colonFree p.1) (hmem : (k, es) ∈ m) :
    (∀ e ∈ es, (wireKey k (opOf e) e.version ∈ wireKeys (marshalExpiredMap m age)
        ↔ e.version < wrap64 (currentVersion m k - age)))
    ∧ (-(2 ^ 63) ≤ currentVersion m k - age → currentVersion m k - age < 2 ^ 63 →
        ∀ e ∈ es, (wireKey k (opOf e) e.version ∈ wireKeys (marshalExpiredMap m age)
          ↔ e.version < currentVersion m k - age))
    ∧ (0 ≤ age → -(2 ^ 63) ≤ currentVersion m k - age →
        currentVersion m k - age < 2 ^ 63 →
        ∀ e ∈ es, (∀ x ∈ es, x.version ≤ e.version) → 0 ≤ e.version →
        wireKey k (opOf e) e.version ∉ wireKeys (marshalExpiredMap m age)) := by
  have hiff : ∀ e ∈ es, (wireKey k (opOf e) e.version ∈ wireKeys (marshalExpiredMap m age)
      ↔ e.version < wrap64 (currentVersion m k - age)) := by
    intro e he
    rw [mem_wireKeys_expired age h1 h2 hmem e]
    constructor
    · rintro ⟨_, hlt⟩
      exact hlt
    · intro hlt
      exact ⟨⟨e, he, rfl, rfl⟩, hlt⟩
  refine ⟨hiff, ?_, ?_⟩
  · intro hlo hhi e he
    rw [hiff e he, wrap64_eq_self hlo hhi]
  · intro hage hlo hhi e he hmax hpos hcontra
    have hlt := (hiff e he).mp hcontra
    rw [wrap64_eq_self hlo hhi] at hlt
    have hcv : currentVersion m k ≤ e.version := by
      rw [currentVersion, vLookup_of_mem h1 hmem]
      exact currentVersionFold_le 0 e.version es hpos hmax
    omega

theorem C5_witness :
    wireKey ['k'] ['s'] 1
        ∈ wireKeys (marshalExpiredMap [(['k'], [⟨['a'], 1⟩, ⟨['b'], 5⟩])] 2)
    ∧ wireKey ['k'] ['s'] 5
        ∉ wireKeys (marshalExpiredMap [(['k'], [⟨['a'], 1⟩, ⟨['b'], 5⟩])] 2) := by
  have h := C5_expired_threshold [(['k'], [⟨['a'], 1⟩, ⟨['b'], 5⟩])] 2 ['k']
    [⟨['a'], 1⟩, ⟨['b'], 5⟩] (by decide) (by decide) (by decide)
  constructor
  · exact ((h.2.1 (by decide) (by decide)) ⟨['a'], 1⟩ (by decide)).mpr (by decide)
  · exact h.2.2 (by decide) (by decide) (by decide) ⟨['b'], 5⟩ (by decide)
      (by decide) (by decide)

/-- C5 counterexample: a key whose only entry has version -5, with age 2.
`currentVersion` floors at 0, the threshold is -2, and the entry — which
holds the key's current maximum version — is included in the expired map even
though the age is nonnegative. -/
theorem C5_counterexample :
    wireKey ['k'] ['s'] (-5)
        ∈ wireKeys (marshalExpiredMap [(['k'], [⟨['x'], -5⟩])] 2)
    ∧ (∀ e ∈ vLookup [(['k'], [⟨['x'], -5⟩])] ['k'], e.version ≤ -5)
    ∧ ((0 : Int) ≤ 2) := by
  refine ⟨by decide, by decide, by decide⟩

theorem C10_witness :
    vGet [(['k'], [⟨['x'], -3⟩, ⟨['y'], -1⟩])] ['k'] = []
    ∧ vGet [(['k'], [⟨['a'], 0⟩, ⟨['b'], 0⟩, ⟨['a'], -2⟩])] ['k'] = ['b'] := by
  constructor
  · exact (C10_negative_versions_never_selected
      [(['k'], [⟨['x'], -3⟩, ⟨['y'], -1⟩])] ['k']).1 (by decide)
  · exact (C10_negative_versions_never_selected
      [(['k'], [⟨['a'], 0⟩, ⟨['b'], 0⟩, ⟨['a'], -2⟩])] ['k']).2
      ⟨['b'], 0⟩ (by decide) (by decide) (by decide) (by decide)

/-- The fuel is irrelevant once it covers the remaining iterations: the Go
loop, though syntactically unbounded, exits within `4 - retries` further
iterations. -/
theorem pullLoop_fuel (res : Nat → PullOutcome) :
    ∀ (f1 f2 retries : Nat), 3 - retries < f1 → 3 - retries < f2 →
      pullLoop res retries f1 = pullLoop res retries f2 := by
  intro f1
  induction f1 with
  | zero =>
    intro f2 retries h1 h2
    omega
  | succ f1 ih =>
    intro f2 retries h1 h2
    cases f2 with
    | zero => omega
    | succ f2 =>
      show pullLoop res retries (f1 + 1) = pullLoop res retries (f2 + 1)
      unfold pullLoop
      cases res (retries + 1) with
      | ok => rfl
      | notFound => rfl
      | err =>
        by_cases hr : retries + 1 > 3
        · rw [if_pos hr, if_pos hr]
        · rw [if_neg hr, if_neg hr]
          exact ih f2 (retries + 1) (by omega) (by omega)

theorem pullLoop_attempts_le (res : Nat → PullOutcome) :
    ∀ (fuel retries : Nat), (pullLoop res retries fuel).1 ≤ retries + fuel := by
  intro fuel
  induction fuel with
  | zero =>
    intro retries
    simp [pullLoop]
  | succ fuel ih =>
    intro retries
    unfold pullLoop
    cases res (retries + 1) with
    | ok => simp
    | notFound => simp
    | err =>
      show (if retries + 1 > 3 then (retries + 1, PullReturn.failed)
        else pullLoop res (retries + 1) fuel).1 ≤ retries + (fuel + 1)
      by_cases hr : retries + 1 > 3
      · rw [if_pos hr]
        show retries + 1 ≤ retries + (fuel + 1)
        omega
      · rw [if_neg hr]
        have := ih (retries + 1)
        omega

theorem pullLoop_all_err (res : Nat → PullOutcome) (h : ∀ i, res i = PullOutcome.err) :
    pullLoop res 0 4 = (4, PullReturn.failed) := by
  unfold pullLoop
  rw [h 1]
  rw [if_neg (by omega)]
  unfold pullLoop
  rw [h 2]
  rw [if_neg (by omega)]
  unfold pullLoop
  rw [h 3]
  rw [if_neg (by omega)]
  unfold pullLoop
  rw [h 4]
  rw [if_pos (by omega)]

/-- C6, corrected.  When `PullImage` must actually pull, a transient failure
is retried immediately, but the bound is 4 pull attempts in total (the
initial attempt plus up to 3 retries — the loop exits on `retries > 3` after
the increment), not 3; a failure persisting through all 4 attempts is
surfaced to the caller. -/
theorem C6_pull_attempt_bound (inspect : InspectRes) (contentId : Str)
    (res : Nat → PullOutcome) :
    (∀ n ret, pullImage inspect contentId res = some (n, ret) → n ≤ 4)
    ∧ ((∀ i, res i = PullOutcome.err) →
        (inspect = InspectRes.noSuchImage
          ∨ ∃ i, inspect = InspectRes.img i ∧ i.id ≠ contentId) →
        pullImage inspect contentId res = some (4, PullReturn.failed)) := by
  constructor
  · intro n ret h
    cases inspect with
    | err => cases h
    | noSuchImage =>
      simp only [pullImage] at h
      have he : pullLoop res 0 4 = (n, ret) := Option.some_injective _ h
      have h1 : (pullLoop res 0 4).1 = n := by rw [he]
      have hb := pullLoop_attempts_le res 4 0
      omega
    | img i =>
      simp only [pullImage] at h
      by_cases hid : i.id = contentId
      · rw [if_pos hid] at h
        have he : ((0 : Nat), PullReturn.success) = (n, ret) := Option.some_injective _ h
        have h1 : (0 : Nat) = n := congrArg Prod.fst he
        omega
      · rw [if_neg hid] at h
        have he : pullLoop res 0 4 = (n, ret) := Option.some_injective _ h
        have h1 : (pullLoop res 0 4).1 = n := by rw [he]
        have hb := pullLoop_attempts_le res 4 0
        omega
  · intro hall hcase
    rcases hcase with rfl | ⟨i, rfl, hne⟩
    · show some (pullLoop res 0 4) = _
      rw [pullLoop_all_err res hall]
    · show (if i.id = contentId then _ else some (pullLoop res 0 4)) = _
      rw [if_neg hne, pullLoop_all_err res hall]

theorem C6_witness :
    pullImage InspectRes.noSuchImage ['i'] (fun _ => PullOutcome.err)
        = some (4, PullReturn.failed)
    ∧ (0 : Nat) ≤ 4 := by
  constructor
  · exact (C6_pull_attempt_bound InspectRes.noSuchImage ['i']
      (fun _ => PullOutcome.err)).2 (fun i => rfl) (Or.inl rfl)
  · exact (C6_pull_attempt_bound (InspectRes.img ⟨['i']⟩) ['i']
      (fun _ => PullOutcome.err)).1 0 PullReturn.success (by decide)

/-- C6 counterexample: with every attempt failing transiently, the loop
performs 4 pull attempts before surfacing the error — more than the claimed
bound of 3. -/
theorem C6_counterexample :
    pullImage InspectRes.noSuchImage ['i'] (fun _ => PullOutcome.err)
        = some (4, PullReturn.failed)
    ∧ ¬ ((4 : Nat) ≤ 3) := by
  refine ⟨by decide, by decide⟩

namespace ServiceRuntime

theorem stopContainer_invoked (oc : Str → StopOutcome) (st : StopState) (c : Container) :
    (stopContainer oc st c).1.invoked = st.invoked ++ [c.id] := by
  unfold stopContainer
  split
  · rfl
  · cases oc c.id <;> rfl

theorem stopContainer_blacklist (oc : Str → StopOutcome) (st : StopState) (c : Container) :
    (stopContainer oc st c).1.blacklist = st.blacklist
      ∨ (stopContainer oc st c).1.blacklist = st.blacklist ++ [c.id] := by
  unfold stopContainer
  split
  · exact Or.inl rfl
  · cases oc c.id
    · exact Or.inl rfl
    · exact Or.inl rfl
    · exact Or.inr rfl

theorem stopContainer_blacklist_mono (oc : Str → StopOutcome) (st : StopState)
    (c : Container) {x : Str} (hx : x ∈ st.blacklist) :
    x ∈ (stopContainer oc st c).1.blacklist := by
  rcases stopContainer_blacklist oc st c with h | h
  · rw [h]
    exact hx
  · rw [h]
    exact List.mem_append.mpr (Or.inl hx)

theorem Stop_invoked (oc : Str → StopOutcome) (app : App) :
    ∀ (cs : List Container) (st : StopState),
    (Stop oc app cs st).1.invoked
      = st.invoked
        ++ (((cs.filter (fun c => decide (stopMatch app c))).map (fun c => c.id)).take 1) := by
  intro cs
  induction cs with
  | nil =>
    intro st
    simp [Stop]
  | cons c rest ih =>
    intro st
    simp only [Stop]
    by_cases hm : stopMatch app c
    · rw [if_pos hm, List.filter_cons_of_pos (by simpa using hm), stopContainer_invoked]
      simp
    · rw [if_neg hm, List.filter_cons_of_neg (by simpa using hm)]
      exact ih st

theorem StopAllMatching_invoked (oc : Str → StopOutcome) (name : Str) :
    ∀ (cs : List Container) (st : StopState),
    (StopAllMatching oc name cs st).invoked
      = st.invoked
        ++ (cs.filter (fun c => decide (envFor c galaxyApp = name))).map (fun c => c.id) := by
  intro cs
  induction cs with
  | nil =>
    intro st
    simp [StopAllMatching]
  | cons c rest ih =>
    intro st
    simp only [StopAllMatching]
    by_cases hm : envFor c galaxyApp = name
    · rw [if_neg (by simpa using hm), List.filter_cons_of_pos (by simpa using hm), ih,
        stopContainer_invoked]
      simp
    · rw [if_pos (by simpa using hm), List.filter_cons_of_neg (by simpa using hm)]
      exact ih st

theorem StopAll_invoked (oc : Str → StopOutcome) :
    ∀ (cs : List Container) (st : StopState),
    (StopAll oc cs st).invoked = st.invoked ++ cs.map (fun c => c.id) := by
  intro cs
  induction cs with
  | nil =>
    intro st
    simp [StopAll]
  | cons c rest ih =>
    intro st
    simp only [StopAll]
    rw [ih, stopContainer_invoked]
    simp

theorem StopUnassigned_invoked (oc : Str → StopOutcome) (pools : Str → Option (List Str))
    (pool : Str) :
    ∀ (cs : List Container) (st : StopState),
    (StopUnassigned oc pools pool cs st).invoked
      = st.invoked ++ (cs.filter (unassignedTarget pools pool)).map (fun c => c.id) := by
  intro cs
  induction cs with
  | nil =>
    intro st
    simp [StopUnassigned]
  | cons c rest ih =>
    intro st
    simp only [StopUnassigned]
    cases hps : pools (envFor c galaxyApp) with
    | none =>
      rw [List.filter_cons_of_neg (by simp [unassignedTarget, hps])]
      exact ih st
    | some ps =>
      dsimp only
      by_cases hin : ps = [] ∨ pool ∉ ps
      · rw [if_pos hin,
          List.filter_cons_of_pos (by simp only [unassignedTarget, hps]; exact decide_eq_true hin),
          ih, stopContainer_invoked]
        simp
      · rw [if_neg hin,
          List.filter_cons_of_neg (by simp only [unassignedTarget, hps]; simpa using hin)]
        exact ih st

theorem StopAllButCurrentVersion_invoked (oc : Str → StopOutcome)
    (inspect : Str → Option (Option ImageRec)) (app : App) :
    ∀ (cs : List Container) (st : StopState),
    (StopAllButCurrentVersion oc inspect app cs st).invoked
      = st.invoked ++ (cs.filter (oldVersionTarget inspect app)).map (fun c => c.id) := by
  intro cs
  induction cs with
  | nil =>
    intro st
    simp [StopAllButCurrentVersion]
  | cons c rest ih =>
    intro st
    simp only [StopAllButCurrentVersion]
    by_cases happ : envFor c galaxyApp = app.name
    · rw [if_neg (by simpa using happ)]
      cases hins : inspect c.image with
      | none =>
        rw [List.filter_cons_of_neg (by simp [oldVersionTarget, hins])]
        exact ih st
      | some o =>
        cases o with
        | none =>
          rw [List.filter_cons_of_neg (by simp [oldVersionTarget, hins])]
          exact ih st
        | some image =>
          dsimp only
          by_cases hdiff : (image.id ≠ app.versionId ∧ app.versionId ≠ [])
              ∨ (envFor c galaxyVersion ≠ formatInt app.appId ∧ envFor c galaxyVersion ≠ [])
          · rw [if_pos hdiff,
              List.filter_cons_of_pos
                (by simp only [oldVersionTarget, hins, happ]; simpa using hdiff),
              ih, stopContainer_invoked]
            simp
          · rw [if_neg hdiff,
              List.filter_cons_of_neg
                (by simp only [oldVersionTarget, hins, happ]; simpa using hdiff)]
            exact ih st
    · rw [if_pos (by simpa using happ),
        List.filter_cons_of_neg (by simp [oldVersionTarget, happ])]
      exact ih st

theorem StopOldVersion_invoked (oc : Str → StopOutcome)
    (inspect : Str → Option (Option ImageRec)) (app : App) (limit : Int) :
    ∀ (cs : List Container) (st : StopState) (stopped : Int),
    stopped ≤ limit →
    (StopOldVersion oc inspect app limit cs st stopped).invoked
      = st.invoked
        ++ (((cs.filter (oldVersionTarget inspect app)).map (fun c => c.id)).take
            (limit - stopped).toNat) := by
  intro cs
  induction cs with
  | nil =>
    intro st stopped hle
    simp [StopOldVersion]
  | cons c rest ih =>
    intro st stopped hle
    simp only [StopOldVersion]
    by_cases hstop : stopped = limit
    · rw [if_pos hstop, show (limit - stopped).toNat = 0 from by omega]
      simp
    · rw [if_neg hstop]
      by_cases happ : envFor c galaxyApp = app.name
      · rw [if_neg (by simpa using happ)]
        cases hins : inspect c.image with
        | none =>
          rw [List.filter_cons_of_neg (by simp [oldVersionTarget, hins])]
          exact ih st stopped hle
        | some o =>
          cases o with
          | none =>
            rw [List.filter_cons_of_neg (by simp [oldVersionTarget, hins])]
            exact ih st stopped hle
          | some image =>
            dsimp only
            by_cases hdiff : (image.id ≠ app.versionId ∧ app.versionId ≠ [])
                ∨ (envFor c galaxyVersion ≠ formatInt app.appId
                    ∧ envFor c galaxyVersion ≠ [])
            · rw [if_pos hdiff,
                List.filter_cons_of_pos
                  (by simp only [oldVersionTarget, hins, happ]; simpa using hdiff),
                ih _ (stopped + 1) (by omega), stopContainer_invoked,
                show (limit - stopped).toNat = (limit - (stopped + 1)).toNat + 1 from
                  by omega]
              simp [List.take_succ_cons]
            · rw [if_neg hdiff,
                List.filter_cons_of_neg
                  (by simp only [oldVersionTarget, hins, happ]; simpa using hdiff)]
              exact ih st stopped hle
      · rw [if_pos (by simpa using happ),
          List.filter_cons_of_neg (by simp [oldVersionTarget, happ])]
        exact ih st stopped hle

theorem Stop_blacklist_mono (oc : Str → StopOutcome) (app : App) :
    ∀ (cs : List Container) (st : StopState), ∀ x ∈ st.blacklist,
      x ∈ (Stop oc app cs st).1.blacklist := by
  intro cs
  induction cs with
  | nil =>
    intro st x hx
    exact hx
  | cons c rest ih =>
    intro st x hx
    simp only [Stop]
    by_cases hm : stopMatch app c
    · rw [if_pos hm]
      exact stopContainer_blacklist_mono oc st c hx
    · rw [if_neg hm]
      exact ih st x hx

theorem StopAllMatching_blacklist_mono (oc : Str → StopOutcome) (name : Str) :
    ∀ (cs : List Container) (st : StopState), ∀ x ∈ st.blacklist,
      x ∈ (StopAllMatching oc name cs st).blacklist := by
  intro cs
  induction cs with
  | nil =>
    intro st x hx
    exact hx
  | cons c rest ih =>
    intro st x hx
    simp only [StopAllMatching]
    by_cases hm : envFor c galaxyApp ≠ name
    · rw [if_pos hm]
      exact ih st x hx
    · rw [if_neg hm]
      exact ih _ x (stopContainer_blacklist_mono oc st c hx)

theorem StopOldVersion_blacklist_mono (oc : Str → StopOutcome)
    (inspect : Str → Option (Option ImageRec)) (app : App) (limit : Int) :
    ∀ (cs : List Container) (st : StopState) (stopped : Int), ∀ x ∈ st.blacklist,
      x ∈ (StopOldVersion oc inspect app limit cs st stopped).blacklist := by
  intro cs
  induction cs with
  | nil =>
    intro st stopped x hx
    exact hx
  | cons c rest ih =>
    intro st stopped x hx
    simp only [StopOldVersion]
    by_cases hstop : stopped = limit
    · rw [if_pos hstop]
      exact hx
    · rw [if_neg hstop]
      by_cases happ : envFor c galaxyApp ≠ app.name
      · rw [if_pos happ]
        exact ih st stopped x hx
      · rw [if_neg happ]
        cases inspect c.image with
        | none => exact ih st stopped x hx
        | some o =>
          cases o with
          | none => exact ih st stopped x hx
          | some image =>
            dsimp only
            by_cases hdiff : (image.id ≠ app.versionId ∧ app.versionId ≠ [])
                ∨ (envFor c galaxyVersion ≠ formatInt app.appId
                    ∧ envFor c galaxyVersion ≠ [])
            · rw [if_pos hdiff]
              exact ih _ _ x (stopContainer_blacklist_mono oc st c hx)
            · rw [if_neg hdiff]
              exact ih st stopped x hx

theorem StopAllButCurrentVersion_blacklist_mono (oc : Str → StopOutcome)
    (inspect : Str → Option (Option ImageRec)) (app : App) :
    ∀ (cs : List Container) (st : StopState), ∀ x ∈ st.blacklist,
      x ∈ (StopAllButCurrentVersion oc inspect app cs st).blacklist := by
  intro cs
  induction cs with
  | nil =>
    intro st x hx
    exact hx
  | cons c rest ih =>
    intro st x hx
    simp only [StopAllButCurrentVersion]
    by_cases happ : envFor c galaxyApp ≠ app.name
    · rw [if_pos happ]
      exact ih st x hx
    · rw [if_neg happ]
      cases inspect c.image with
      | none => exact ih st x hx
      | some o =>
        cases o with
        | none => exact ih st x hx
        | some image =>
          dsimp only
          by_cases hdiff : (image.id ≠ app.versionId ∧ app.versionId ≠ [])
              ∨ (envFor c galaxyVersion ≠ formatInt app.appId
                  ∧ envFor c galaxyVersion ≠ [])
          · rw [if_pos hdiff]
            exact ih _ x (stopContainer_blacklist_mono oc st c hx)
          · rw [if_neg hdiff]
            exact ih st x hx

theorem StopUnassigned_blacklist_mono (oc : Str → StopOutcome)
    (pools : Str → Option (List Str)) (pool : Str) :
    ∀ (cs : List Container) (st : StopState), ∀ x ∈ st.blacklist,
      x ∈ (StopUnassigned oc pools pool cs st).blacklist := by
  intro cs
  induction cs with
  | nil =>
    intro st x hx
    exact hx
  | cons c rest ih =>
    intro st x hx
    simp only [StopUnassigned]
    cases pools (envFor c galaxyApp) with
    | none => exact ih st x hx
    | some ps =>
      dsimp only
      by_cases hin : ps = [] ∨ pool ∉ ps
      · rw [if_pos hin]
        exact ih _ x (stopContainer_blacklist_mono oc st c hx)
      · rw [if_neg hin]
        exact ih st x hx

theorem StopAll_blacklist_mono (oc : Str → StopOutcome) :
    ∀ (cs : List Container) (st : StopState), ∀ x ∈ st.blacklist,
      x ∈ (StopAll oc cs st).blacklist := by
  intro cs
  induction cs with
  | nil =>
    intro st x hx
    exact hx
  | cons c rest ih =>
    intro st x hx
    simp only [StopAll]
    exact ih _ x (stopContainer_blacklist_mono oc st c hx)

end ServiceRuntime

/-- C7.  A stop that the watchdog interrupts blacklists the container id and
returns nil; a blacklisted id makes `stopContainer` a no-op that returns nil
and issues no runtime stop; and no operation of the Stop family ever removes
an id from the process-wide blacklist. -/
theorem C7_stop_watchdog_blacklist (oc : Str → StopOutcome)
    (inspect : Str → Option (Option ImageRec)) (pools : Str → Option (List Str))
    (app : App) (name pool : Str) (limit : Int)
    (cs : List Container) (st : StopState) (c : Container) :
    (c.id ∉ st.blacklist → oc c.id = StopOutcome.timedOut →
      stopContainer oc st c
        = ({ blacklist := st.blacklist ++ [c.id],
             invoked := st.invoked ++ [c.id],
             runtimeStops := st.runtimeStops ++ [c.id] }, false))
    ∧ (c.id ∈ st.blacklist →
        stopContainer oc st c = ({ st with invoked := st.invoked ++ [c.id] }, false))
    ∧ (∀ x ∈ st.blacklist, x ∈ (stopContainer oc st c).1.blacklist)
    ∧ (∀ x ∈ st.blacklist, x ∈ (ServiceRuntime.Stop oc app cs st).1.blacklist)
    ∧ (∀ x ∈ st.blacklist, x ∈ (ServiceRuntime.StopAllMatching oc name cs st).blacklist)
    ∧ (∀ x ∈ st.blacklist, ∀ stopped : Int,
        x ∈ (ServiceRuntime.StopOldVersion oc inspect app limit cs st stopped).blacklist)
    ∧ (∀ x ∈ st.blacklist,
        x ∈ (ServiceRuntime.StopAllButCurrentVersion oc inspect app cs st).blacklist)
    ∧ (∀ x ∈ st.blacklist,
        x ∈ (ServiceRuntime.StopUnassigned oc pools pool cs st).blacklist)
    ∧ (∀ x ∈ st.blacklist, x ∈ (ServiceRuntime.StopAll oc cs st).blacklist) := by
  refine ⟨?_, ?_, fun x hx => ServiceRuntime.stopContainer_blacklist_mono oc st c hx,
    fun x hx => ServiceRuntime.Stop_blacklist_mono oc app cs st x hx,
    fun x hx => ServiceRuntime.StopAllMatching_blacklist_mono oc name cs st x hx,
    fun x hx stopped =>
      ServiceRuntime.StopOldVersion_blacklist_mono oc inspect app limit cs st stopped x hx,
    fun x hx => ServiceRuntime.StopAllButCurrentVersion_blacklist_mono oc inspect app cs st x hx,
    fun x hx => ServiceRuntime.StopUnassigned_blacklist_mono oc pools pool cs st x hx,
    fun x hx => ServiceRuntime.StopAll_blacklist_mono oc cs st x hx⟩
  · intro hnb hto
    unfold stopContainer
    rw [if_neg hnb, hto]
  · intro hb
    unfold stopContainer
    rw [if_pos hb]

theorem C7_witness :
    stopContainer (fun _ => StopOutcome.timedOut) ⟨[], [], []⟩ ⟨['c'], ['i'], []⟩
      = (⟨[['c']], [['c']], [['c']]⟩, false)
    ∧ stopContainer (fun _ => StopOutcome.timedOut) ⟨[['c']], [['c']], [['c']]⟩
        ⟨['c'], ['i'], []⟩
      = (⟨[['c']], [['c'], ['c']], [['c']]⟩, false) := by
  constructor
  · exact (C7_stop_watchdog_blacklist (fun _ => StopOutcome.timedOut)
      (fun _ => none) (fun _ => none) ⟨[], 0, []⟩ [] [] 0 [] ⟨[], [], []⟩
      ⟨['c'], ['i'], []⟩).1 (by decide) rfl
  · exact (C7_stop_watchdog_blacklist (fun _ => StopOutcome.timedOut)
      (fun _ => none) (fun _ => none) ⟨[], 0, []⟩ [] [] 0 []
      ⟨[['c']], [['c']], [['c']]⟩ ⟨['c'], ['i'], []⟩).2.1 (by decide)

/-- C8, corrected.  `StopAllMatching`, `StopOldVersion` (capped at `limit`),
`StopAllButCurrentVersion`, `StopUnassigned` and `StopAll` invoke
`stopContainer` on exactly the containers matching their filters, in
enumeration order; `Stop`, however, returns from inside its loop and so
invokes `stopContainer` only on the first container matching its filter. -/
theorem C8_stop_family_coverage (oc : Str → StopOutcome)
    (inspect : Str → Option (Option ImageRec)) (pools : Str → Option (List Str))
    (app : App) (name pool : Str) (limit : Int)
    (cs : List Container) (st : StopState) :
    ((ServiceRuntime.Stop oc app cs st).1.invoked
      = st.invoked
        ++ (((cs.filter (fun c => decide (ServiceRuntime.stopMatch app c))).map
            (fun c => c.id)).take 1))
    ∧ ((ServiceRuntime.StopAllMatching oc name cs st).invoked
      = st.invoked
        ++ (cs.filter (fun c => decide (envFor c galaxyApp = name))).map (fun c => c.id))
    ∧ (0 ≤ limit →
        (ServiceRuntime.StopOldVersion oc inspect app limit cs st 0).invoked
          = st.invoked
            ++ (((cs.filter (ServiceRuntime.oldVersionTarget inspect app)).map
                (fun c => c.id)).take limit.toNat))
    ∧ ((ServiceRuntime.StopAllButCurrentVersion oc inspect app cs st).invoked
      = st.invoked
        ++ (cs.filter (ServiceRuntime.oldVersionTarget inspect app)).map (fun c => c.id))
    ∧ ((ServiceRuntime.StopUnassigned oc pools pool cs st).invoked
      = st.invoked
        ++ (cs.filter (ServiceRuntime.unassignedTarget pools pool)).map (fun c => c.id))
    ∧ ((ServiceRuntime.StopAll oc cs st).invoked
      = st.invoked ++ cs.map (fun c => c.id)) := by
  refine ⟨ServiceRuntime.Stop_invoked oc app cs st,
    ServiceRuntime.StopAllMatching_invoked oc name cs st, ?_,
    ServiceRuntime.StopAllButCurrentVersion_invoked oc inspect app cs st,
    ServiceRuntime.StopUnassigned_invoked oc pools pool cs st,
    ServiceRuntime.StopAll_invoked oc cs st⟩
  intro hl
  rw [ServiceRuntime.StopOldVersion_invoked oc inspect app limit cs st 0 hl]
  rw [show (limit - 0).toNat = limit.toNat from by omega]

theorem C8_witness :
    (ServiceRuntime.StopOldVersion (fun _ => StopOutcome.completed)
        (fun _ => some (some ⟨['x']⟩)) ⟨['a'], 7, ['v']⟩ 1
        [⟨['1'], ['i'], [(galaxyApp, ['a'])]⟩, ⟨['2'], ['i'], [(galaxyApp, ['a'])]⟩]
        ⟨[], [], []⟩ 0).invoked = [['1']]
    ∧ (ServiceRuntime.StopAll (fun _ => StopOutcome.completed)
        [⟨['1'], ['i'], []⟩, ⟨['2'], ['i'], []⟩] ⟨[], [], []⟩).invoked
      = [['1'], ['2']] := by
  have h := C8_stop_family_coverage (fun _ => StopOutcome.completed)
    (fun _ => some (some ⟨['x']⟩)) (fun _ => none) ⟨['a'], 7, ['v']⟩ [] []
    1 [⟨['1'], ['i'], [(galaxyApp, ['a'])]⟩, ⟨['2'], ['i'], [(galaxyApp, ['a'])]⟩]
    ⟨[], [], []⟩
  have h2 := C8_stop_family_coverage (fun _ => StopOutcome.completed)
    (fun _ => some (some ⟨['x']⟩)) (fun _ => none) ⟨['a'], 7, ['v']⟩ [] []
    1 [⟨['1'], ['i'], []⟩, ⟨['2'], ['i'], []⟩] ⟨[], [], []⟩
  constructor
  · rw [h.2.2.1 (by decide)]
    decide
  · rw [h2.2.2.2.2.2]
    decide

/-- C8 counterexample: two containers both matching `Stop`'s filter — `Stop`
invokes `stopContainer` only on the first and returns, leaving the second
matching container unvisited. -/
theorem C8_counterexample :
    (ServiceRuntime.Stop (fun _ => StopOutcome.completed) ⟨['a'], 7, ['v']⟩
        [⟨['1'], ['v'], [(galaxyApp, ['a']), (galaxyVersion, ['7'])]⟩,
         ⟨['2'], ['v'], [(galaxyApp, ['a']), (galaxyVersion, ['7'])]⟩]
        ⟨[], [], []⟩).1.invoked = [['1']]
    ∧ ServiceRuntime.stopMatch ⟨['a'], 7, ['v']⟩
        ⟨['2'], ['v'], [(galaxyApp, ['a']), (galaxyVersion, ['7'])]⟩
    ∧ ([['1']] : List Str) ≠ [['1'], ['2']] := by
  refine ⟨by decide, by decide, by decide⟩

/-- C9, corrected.  For a nonnegative `limit`, `StopOldVersion` invokes
`stopContainer` on at most `limit` containers — exactly the first
`min limit #targets` containers matching the version-mismatch filter — and
touches no other container, while `StopAllButCurrentVersion` stops every
matching container with no bound.  For a negative `limit` the
`stopped == limit` guard never fires and `StopOldVersion` stops every
matching container, violating the claimed bound; see the counterexample. -/
theorem C9_version_stop_bound (oc : Str → StopOutcome)
    (inspect : Str → Option (Option ImageRec)) (app : App) (limit : Int)
    (cs : List Container) (st : StopState) :
    (0 ≤ limit →
      (ServiceRuntime.StopOldVersion oc inspect app limit cs st 0).invoked
        = st.invoked
          ++ (((cs.filter (ServiceRuntime.oldVersionTarget inspect app)).map
              (fun c => c.id)).take limit.toNat)
      ∧ (((((cs.filter (ServiceRuntime.oldVersionTarget inspect app)).map
            (fun c => c.id)).take limit.toNat).length : Int) ≤ limit))
    ∧ (ServiceRuntime.StopAllButCurrentVersion oc inspect app cs st).invoked
        = st.invoked
          ++ (cs.filter (ServiceRuntime.oldVersionTarget inspect app)).map
              (fun c => c.id) := by
  refine ⟨?_, ServiceRuntime.StopAllButCurrentVersion_invoked oc inspect app cs st⟩
  intro hl
  constructor
  · rw [ServiceRuntime.StopOldVersion_invoked oc inspect app limit cs st 0 hl]
    rw [show (limit - 0).toNat = limit.toNat from by omega]
  · have hlen := List.length_take_le limit.toNat
      ((cs.filter (ServiceRuntime.oldVersionTarget inspect app)).map (fun c => c.id))
    omega

theorem C9_witness :
    (ServiceRuntime.StopOldVersion (fun _ => StopOutcome.completed)
        (fun _ => some (some ⟨['x']⟩)) ⟨['a'], 7, ['v']⟩ 1
        [⟨['1'], ['i'], [(galaxyApp, ['a'])]⟩, ⟨['2'], ['i'], [(galaxyApp, ['a'])]⟩,
         ⟨['3'], ['i'], [(galaxyApp, ['b'])]⟩]
        ⟨[], [], []⟩ 0).invoked = [['1']]
    ∧ (ServiceRuntime.StopAllButCurrentVersion (fun _ => StopOutcome.completed)
        (fun _ => some (some ⟨['x']⟩)) ⟨['a'], 7, ['v']⟩
        [⟨['1'], ['i'], [(galaxyApp, ['a'])]⟩, ⟨['2'], ['i'], [(galaxyApp, ['a'])]⟩]
        ⟨[], [], []⟩).invoked = [['1'], ['2']] := by
  have h := C9_version_stop_bound (fun _ => StopOutcome.completed)
    (fun _ => some (some ⟨['x']⟩)) ⟨['a'], 7, ['v']⟩ 1
    [⟨['1'], ['i'], [(galaxyApp, ['a'])]⟩, ⟨['2'], ['i'], [(galaxyApp, ['a'])]⟩,
     ⟨['3'], ['i'], [(galaxyApp, ['b'])]⟩] ⟨[], [], []⟩
  have h2 := C9_version_stop_bound (fun _ => StopOutcome.completed)
    (fun _ => some (some ⟨['x']⟩)) ⟨['a'], 7, ['v']⟩ 1
    [⟨['1'], ['i'], [(galaxyApp, ['a'])]⟩, ⟨['2'], ['i'], [(galaxyApp, ['a'])]⟩]
    ⟨[], [], []⟩
  constructor
  · rw [(h.1 (by decide)).1]
    decide
  · rw [h2.2]
    decide

/-- C9 counterexample: with `limit = -1` the `stopped == limit` guard never
fires, so `StopOldVersion` stops every non-matching container — here one
container is stopped, which is not "at most -1". -/
theorem C9_counterexample :
    (ServiceRuntime.StopOldVersion (fun _ => StopOutcome.completed)
        (fun _ => some (some ⟨['x']⟩)) ⟨['a'], 7, ['v']⟩ (-1)
        [⟨['1'], ['i'], [(galaxyApp, ['a'])]⟩] ⟨[], [], []⟩ 0).invoked = [['1']]
    ∧ ¬ ((1 : Int) ≤ -1) := by
  refine ⟨by decide, by decide⟩

end Galaxy
